import Mathlib

/-!
# Packed threshold secret sharing over a prime field: embedding and verification

Shallow embedding of `src/packed.rs` from rust-threshold-secret-sharing.
Rust `i64` values are modelled as `ℤ` (the field `prime` is small enough that
the widened multiplications in the source never overflow, so arithmetic is
exact), `usize` as `ℕ`, fallible calls (Rust `assert!`) as `Option`.

The repository's `numtheory` module (modular arithmetic, the radix-2/radix-3
finite-field transforms and the Newton interpolator) is not part of the given
sources; only its callers in `packed.rs` are.  Those definitions are therefore
modelled from the specification, and each carries a doc comment starting with
`Modelled from the spec:`.
-/

/-- Modelled from the spec: FieldArithmetic `pow(base, exponent)` (binary
exponentiation, exponent ≥ 0), result a normalized representative in `[0, p)`.
Binary exponentiation with reduction at every step computes exactly
`base ^ exponent % p`, which is how it is written here.  Missing from `src/`:
`numtheory::mod_pow`. -/
def mod_pow (base : ℤ) (exponent : ℕ) (prime : ℤ) : ℤ :=
  base ^ exponent % prime

/-- Fuel-driven extended Euclidean algorithm on the remainder pair `(r0, r1)`,
tracking only the cofactor of the original operand (`s0`, `s1`).  Returns the
final `(remainder, cofactor)` pair; with enough fuel the remainder is the gcd.
Structural recursion on `fuel` keeps the definition kernel-computable. -/
def egcdAux : ℕ → ℤ → ℤ → ℤ → ℤ → ℤ × ℤ
  | 0, r0, _, s0, _ => (r0, s0)
  | fuel + 1, r0, r1, s0, s1 =>
    if r1 = 0 then (r0, s0) else egcdAux fuel r1 (r0 % r1) s1 (s0 - r0 / r1 * s1)

/-- Modelled from the spec: FieldArithmetic `inverse` (extended Euclidean
algorithm; fails if the operand is ≡ 0 mod p), result normalized in `[0, p)`.
Missing from `src/`: `numtheory::mod_inverse`. -/
def mod_inverse (k prime : ℤ) : Option ℤ :=
  if k % prime = 0 then none
  else if (egcdAux ((k % prime).toNat + 1) prime (k % prime) 0 1).1 = 1 then
    some ((egcdAux ((k % prime).toNat + 1) prime (k % prime) 0 1).2 % prime)
  else none

/-- Horner evaluation of a coefficient list (constant term first) at `x`,
reducing mod `p` at every step so every result is normalized in `[0, p)`. -/
def evalPoly (coefficients : List ℤ) (x prime : ℤ) : ℤ :=
  coefficients.foldr (fun c acc => (c + x * acc) % prime) 0

/-- Modelled from the spec: TransformEngine radix-3 forward transform.  Its
semantics is the finite-field Fourier transform: output `i` is the evaluation
of the input, read as a coefficient vector, at `omega ^ i` (the spec's
glossary: "evaluation/interpolation of polynomials at roots of unity in a
prime field").  The radix-3 decomposition only changes the cost, not the
result; power-of-3 length and root order are construction-time invariants of
the configuration (spec §3).  Missing from `src/`: `numtheory::fft3`. -/
def fft3 (coefficients : List ℤ) (omega prime : ℤ) : List ℤ :=
  (List.range coefficients.length).map fun i =>
    evalPoly coefficients (mod_pow omega i prime) prime

/-- Modelled from the spec: TransformEngine radix-2 inverse transform: the
inverse finite-field Fourier transform, i.e. the forward transform at the
inverse root with every output additionally multiplied by the modular inverse
of the length (spec §4.2).  Fails when a required modular inverse does not
exist (inverse of ≡ 0, spec §4.1/§7c); power-of-2 length and root order are
construction-time invariants (spec §3).  Missing from `src/`:
`numtheory::fft2_inverse`. -/
def fft2_inverse (values : List ℤ) (omega prime : ℤ) : Option (List ℤ) := do
  let wInv ← mod_inverse omega prime
  let nInv ← mod_inverse (values.length : ℤ) prime
  some ((List.range values.length).map fun j =>
    nInv * evalPoly values (mod_pow wInv j prime) prime % prime)

/-- One row of the divided-difference table: from the node `x0` with value
`y0`, produce the first-order divided differences `(yi - y0) / (xi - x0)`
against every later node.  Fails when two nodes coincide mod `p` (the modular
inverse of ≡ 0 fails, spec §4.1/§7c). -/
def ddRow (x0 y0 : ℤ) : List ℤ → List ℤ → ℤ → Option (List ℤ)
  | xi :: xs, yi :: ys, prime => do
    let d ← mod_inverse (xi - x0) prime
    let rest ← ddRow x0 y0 xs ys prime
    some ((yi - y0) * d % prime :: rest)
  | _, _, _ => some []

/-- Modelled from the spec: GeneralInterpolator — Newton divided-difference
interpolation through the given points (cost O(m²) table), returning the
coefficients `f[x_0], f[x_0,x_1], …` of the Newton basis.  Each table row
divides out the leading node; the resulting coefficients are the classical
divided differences.  Missing from `src/`:
`numtheory::newton_interpolation_general`. -/
def divided_differences : List ℤ → List ℤ → ℤ → Option (List ℤ)
  | x0 :: xs, y0 :: ys, prime => do
    let row ← ddRow x0 y0 xs ys prime
    let rest ← divided_differences xs row prime
    some (y0 % prime :: rest)
  | _, _, _ => some []

/-- Modelled from the spec: GeneralInterpolator `evaluate` — nested (Horner)
multiplication in the Newton basis, cost O(m), all results normalized.
Missing from `src/`: `numtheory::newton_evaluate`. -/
def newton_evaluate : List ℤ → List ℤ → ℤ → ℤ → ℤ
  | [], _, _, _ => 0
  | c :: _, [], _, prime => c % prime
  | c :: cs, x0 :: xs, x, prime =>
    (c + (x - x0) * newton_evaluate cs xs x prime) % prime

/-- The packed secret sharing configuration (`struct PackedSecretSharing`,
src/packed.rs:46-62). -/
structure PackedSecretSharing where
  threshold : ℕ
  share_count : ℕ
  secret_count : ℕ
  prime : ℤ
  omega_secrets : ℤ
  omega_shares : ℤ
deriving DecidableEq

/-- `PSS_4_8_3` (src/packed.rs:66-73). -/
def PSS_4_8_3 : PackedSecretSharing :=
  { threshold := 4, share_count := 8, secret_count := 3,
    prime := 433, omega_secrets := 354, omega_shares := 150 }

/-- `PSS_4_26_3` (src/packed.rs:77-84). -/
def PSS_4_26_3 : PackedSecretSharing :=
  { threshold := 4, share_count := 26, secret_count := 3,
    prime := 433, omega_secrets := 354, omega_shares := 17 }

/-- `PSS_155_728_100` (src/packed.rs:88-95). -/
def PSS_155_728_100 : PackedSecretSharing :=
  { threshold := 155, share_count := 728, secret_count := 100,
    prime := 746497, omega_secrets := 95660, omega_shares := 610121 }

/-- `PSS_155_19682_100` (src/packed.rs:99-106). -/
def PSS_155_19682_100 : PackedSecretSharing :=
  { threshold := 155, share_count := 19682, secret_count := 100,
    prime := 5038849, omega_secrets := 4318906, omega_shares := 1814687 }

/-- `reconstruct_limit` (src/packed.rs:112-114). -/
def reconstruct_limit (pss : PackedSecretSharing) : ℕ :=
  pss.secret_count + pss.threshold + 1

/-- `recover_polynomial` (src/packed.rs:150-161): fix the value 0 at the
reserved point, append the secrets and the randomness, check the length
(`assert_eq!`), and run the inverse radix-2 transform to get coefficients. -/
def recover_polynomial (pss : PackedSecretSharing) (secrets randomness : List ℤ) :
    Option (List ℤ) :=
  if (0 :: (secrets ++ randomness)).length ≠ reconstruct_limit pss then none
  else fft2_inverse (0 :: (secrets ++ randomness)) pss.omega_secrets pss.prime

/-- `evaluate_polynomial` (src/packed.rs:163-167): check the padded length
(`assert_eq!`) and run the forward radix-3 transform. -/
def evaluate_polynomial (pss : PackedSecretSharing) (coefficients : List ℤ) :
    Option (List ℤ) :=
  if coefficients.length ≠ pss.share_count + 1 then none
  else some (fft3 coefficients pss.omega_shares pss.prime)

/-- `share` (src/packed.rs:121-134).  The randomness drawn by
`sample_polynomial` is passed explicitly; the source draws exactly
`threshold` values, modelled by the length guard.  The first transform output
(the reserved point) is dropped (`shares.remove(0)`). -/
def share (pss : PackedSecretSharing) (secrets randomness : List ℤ) :
    Option (List ℤ) :=
  if secrets.length ≠ pss.secret_count then none
  else if randomness.length ≠ pss.threshold then none
  else
    (recover_polynomial pss secrets randomness).bind fun poly =>
      (evaluate_polynomial pss
          (poly ++ List.replicate (pss.share_count + 1 - reconstruct_limit pss) 0)).bind
        fun evals => some evals.tail

/-- `reconstruct` (src/packed.rs:178-195): length guards (`assert!`), map each
rank `i` to the point `omega_shares ^ (i+1)`, interpolate with Newton's
method, then evaluate at `omega_secrets ^ 1 .. omega_secrets ^ (R-1)` keeping
the first `secret_count` results. -/
def reconstruct (pss : PackedSecretSharing) (indices : List ℕ) (shares : List ℤ) :
    Option (List ℤ) :=
  if shares.length ≠ indices.length then none
  else if shares.length < reconstruct_limit pss then none
  else
    match divided_differences (indices.map fun i => mod_pow pss.omega_shares (i + 1) pss.prime)
      shares pss.prime with
    | none => none
    | some poly =>
      some (((List.range (reconstruct_limit pss - 1)).map fun e =>
        newton_evaluate poly (indices.map fun i => mod_pow pss.omega_shares (i + 1) pss.prime)
          (mod_pow pss.omega_secrets (e + 1) pss.prime) pss.prime).take pss.secret_count)

/-- The set of values the randomness source of `sample_polynomial`
(src/packed.rs:136-148) can produce: the source calls
`rand::distributions::range::Range::new(0, self.prime - 1)`, which by the
`rand` crate's contract samples uniformly from the half-open interval
`[0, prime - 1)`. -/
def sample_range_contains (pss : PackedSecretSharing) (x : ℤ) : Prop :=
  0 ≤ x ∧ x < pss.prime - 1

instance (pss : PackedSecretSharing) (x : ℤ) :
    Decidable (sample_range_contains pss x) := by
  unfold sample_range_contains; infer_instance

/-- Validity of a configuration (spec §3): the modulus is a prime `q`,
`omega_secrets` generates the secret domain of size exactly
`reconstruct_limit`, `omega_shares` generates the share domain of size exactly
`share_count + 1`, and there are at least `reconstruct_limit` shares. -/
def ValidPSS (pss : PackedSecretSharing) (q : ℕ) : Prop :=
  q.Prime ∧ pss.prime = (q : ℤ) ∧
    orderOf ((pss.omega_secrets : ZMod q)) = reconstruct_limit pss ∧
    orderOf ((pss.omega_shares : ZMod q)) = pss.share_count + 1 ∧
    reconstruct_limit pss ≤ pss.share_count

/-! ## Field-level mirrors of the integer pipeline (proof layer) -/

/-- Horner evaluation over a field. -/
def evalPolyF {F : Type} [Field F] (coefficients : List F) (x : F) : F :=
  coefficients.foldr (fun c acc => c + x * acc) 0

/-- Inverse discrete Fourier transform over a field. -/
def idftF {F : Type} [Field F] (values : List F) (omega : F) : List F :=
  (List.range values.length).map fun j =>
    (values.length : F)⁻¹ * evalPolyF values (omega⁻¹ ^ j)

/-- Divided differences over a field (total, for the success path). -/
def ddF {F : Type} [Field F] : List F → List F → List F
  | x0 :: xs, y0 :: ys =>
    y0 :: ddF xs (List.zipWith (fun xi yi => (yi - y0) * (xi - x0)⁻¹) xs ys)
  | _, _ => []

/-- Newton-basis Horner evaluation over a field. -/
def newtonEvalF {F : Type} [Field F] : List F → List F → F → F
  | [], _, _ => 0
  | c :: _, [], _ => c
  | c :: cs, x0 :: xs, x => c + (x - x0) * newtonEvalF cs xs x

/-- The formal polynomial in Newton basis with the given coefficients/nodes. -/
noncomputable def newtonPoly {F : Type} [Field F] :
    List F → List F → Polynomial F
  | [], _ => 0
  | c :: _, [] => Polynomial.C c
  | c :: cs, x0 :: xs =>
    Polynomial.C c + (Polynomial.X - Polynomial.C x0) * newtonPoly cs xs

/-- The formal polynomial with the given coefficient list (constant first). -/
noncomputable def listToPoly {F : Type} [Field F] : List F → Polynomial F
  | [] => 0
  | c :: cs => Polynomial.C c + Polynomial.X * listToPoly cs

/-! ## Basic bridging lemmas between the integer pipeline and `ZMod q` -/

lemma intCast_q_emod (q : ℕ) (a : ℤ) : ((a % (q : ℤ) : ℤ) : ZMod q) = (a : ZMod q) := by
  have h : (((q : ℤ) : ℤ) : ZMod q) = 0 := by simp
  calc ((a % (q : ℤ) : ℤ) : ZMod q)
      = ((a - (q : ℤ) * (a / (q : ℤ)) : ℤ) : ZMod q) := by rw [Int.emod_def]
    _ = (a : ZMod q) - ((q : ℤ) : ZMod q) * ((a / (q : ℤ) : ℤ) : ZMod q) := by push_cast; ring
    _ = (a : ZMod q) := by rw [h]; ring

lemma emod_nonneg_lt (p a : ℤ) (hp : 0 < p) : 0 ≤ a % p ∧ a % p < p :=
  ⟨Int.emod_nonneg a hp.ne', Int.emod_lt_of_pos a hp⟩

lemma mod_pow_cast (q : ℕ) (b : ℤ) (e : ℕ) :
    ((mod_pow b e (q : ℤ) : ℤ) : ZMod q) = ((b : ZMod q)) ^ e := by
  unfold mod_pow
  rw [intCast_q_emod]
  push_cast
  ring

lemma evalPoly_nil (x p : ℤ) : evalPoly [] x p = 0 := rfl

lemma evalPoly_cons (c : ℤ) (cs : List ℤ) (x p : ℤ) :
    evalPoly (c :: cs) x p = (c + x * evalPoly cs x p) % p := rfl

lemma evalPolyF_nil {F : Type} [Field F] (x : F) : evalPolyF [] x = 0 := rfl

lemma evalPolyF_cons {F : Type} [Field F] (c : F) (cs : List F) (x : F) :
    evalPolyF (c :: cs) x = c + x * evalPolyF cs x := rfl

lemma evalPoly_cast (q : ℕ) [Fact q.Prime] (cs : List ℤ) (x : ℤ) :
    ((evalPoly cs x (q : ℤ) : ℤ) : ZMod q) =
      evalPolyF (cs.map fun c => ((c : ℤ) : ZMod q)) ((x : ZMod q)) := by
  induction cs with
  | nil => simp [evalPoly_nil, evalPolyF_nil]
  | cons c cs ih =>
    rw [evalPoly_cons, List.map_cons, evalPolyF_cons, intCast_q_emod]
    push_cast
    rw [ih]

lemma evalPoly_bounds (p : ℤ) (hp : 0 < p) (cs : List ℤ) (x : ℤ) :
    0 ≤ evalPoly cs x p ∧ evalPoly cs x p < p := by
  cases cs with
  | nil => exact ⟨le_refl 0, hp⟩
  | cons c cs => rw [evalPoly_cons]; exact emod_nonneg_lt p _ hp

lemma newton_evaluate_nil (xs : List ℤ) (x p : ℤ) : newton_evaluate [] xs x p = 0 := by
  cases xs <;> rfl

lemma newton_evaluate_cons_nil (c : ℤ) (cs : List ℤ) (x p : ℤ) :
    newton_evaluate (c :: cs) [] x p = c % p := rfl

lemma newton_evaluate_cons_cons (c x0 : ℤ) (cs xs : List ℤ) (x p : ℤ) :
    newton_evaluate (c :: cs) (x0 :: xs) x p =
      (c + (x - x0) * newton_evaluate cs xs x p) % p := rfl

lemma newton_evaluate_bounds (p : ℤ) (hp : 0 < p) (cs xs : List ℤ) (x : ℤ) :
    0 ≤ newton_evaluate cs xs x p ∧ newton_evaluate cs xs x p < p := by
  cases cs with
  | nil => rw [newton_evaluate_nil]; exact ⟨le_refl 0, hp⟩
  | cons c cs =>
    cases xs with
    | nil => rw [newton_evaluate_cons_nil]; exact emod_nonneg_lt p _ hp
    | cons x0 xs => rw [newton_evaluate_cons_cons]; exact emod_nonneg_lt p _ hp

lemma newtonEvalF_nil {F : Type} [Field F] (xs : List F) (x : F) :
    newtonEvalF [] xs x = 0 := by
  cases xs <;> rfl

lemma newtonEvalF_cons_nil {F : Type} [Field F] (c : F) (cs : List F) (x : F) :
    newtonEvalF (c :: cs) [] x = c := rfl

lemma newtonEvalF_cons_cons {F : Type} [Field F] (c x0 : F) (cs xs : List F) (x : F) :
    newtonEvalF (c :: cs) (x0 :: xs) x = c + (x - x0) * newtonEvalF cs xs x := rfl

lemma newton_evaluate_cast (q : ℕ) [Fact q.Prime] :
    ∀ (cs xs : List ℤ) (x : ℤ),
      ((newton_evaluate cs xs x (q : ℤ) : ℤ) : ZMod q) =
        newtonEvalF (cs.map fun c => ((c : ℤ) : ZMod q))
          (xs.map fun c => ((c : ℤ) : ZMod q)) ((x : ZMod q))
  | [], xs, x => by rw [newton_evaluate_nil]; simp [newtonEvalF_nil]
  | c :: cs, [], x => by
    rw [newton_evaluate_cons_nil, List.map_cons, List.map_nil, newtonEvalF_cons_nil,
      intCast_q_emod]
  | c :: cs, x0 :: xs, x => by
    rw [newton_evaluate_cons_cons, List.map_cons, List.map_cons, newtonEvalF_cons_cons,
      intCast_q_emod]
    push_cast
    rw [newton_evaluate_cast q cs xs x]

/-! ## Extended Euclid: invariant, gcd computation, and `mod_inverse` facts -/

lemma egcdAux_zero (r0 r1 s0 s1 : ℤ) : egcdAux 0 r0 r1 s0 s1 = (r0, s0) := rfl

lemma egcdAux_succ (fuel : ℕ) (r0 r1 s0 s1 : ℤ) :
    egcdAux (fuel + 1) r0 r1 s0 s1 =
      if r1 = 0 then (r0, s0)
      else egcdAux fuel r1 (r0 % r1) s1 (s0 - r0 / r1 * s1) := rfl

lemma egcdAux_linear (q : ℕ) (a : ℤ) (fuel : ℕ) :
    ∀ r0 r1 s0 s1 : ℤ,
      ((r0 : ℤ) : ZMod q) = ((s0 : ℤ) : ZMod q) * ((a : ℤ) : ZMod q) →
      ((r1 : ℤ) : ZMod q) = ((s1 : ℤ) : ZMod q) * ((a : ℤ) : ZMod q) →
      (((egcdAux fuel r0 r1 s0 s1).1 : ℤ) : ZMod q) =
        (((egcdAux fuel r0 r1 s0 s1).2 : ℤ) : ZMod q) * ((a : ℤ) : ZMod q) := by
  induction fuel with
  | zero => intro r0 r1 s0 s1 h0 h1; rw [egcdAux_zero]; exact h0
  | succ fuel ih =>
    intro r0 r1 s0 s1 h0 h1
    rw [egcdAux_succ]
    by_cases hr : r1 = 0
    · rw [if_pos hr]; exact h0
    · rw [if_neg hr]
      refine ih r1 (r0 % r1) s1 (s0 - r0 / r1 * s1) h1 ?_
      rw [Int.emod_def]
      push_cast
      rw [h0, h1]
      ring

lemma egcdAux_gcd (fuel : ℕ) :
    ∀ r0 r1 s0 s1 : ℤ, 0 ≤ r0 → 0 ≤ r1 → r1 ≤ (fuel : ℤ) →
      (egcdAux fuel r0 r1 s0 s1).1 = (Int.gcd r0 r1 : ℤ) := by
  induction fuel with
  | zero =>
    intro r0 r1 s0 s1 h0 h1 hle
    have hr : r1 = 0 := le_antisymm (by exact_mod_cast hle) h1
    subst hr
    rw [egcdAux_zero]
    simp [Int.gcd_zero_right, Int.natAbs_of_nonneg h0]
  | succ fuel ih =>
    intro r0 r1 s0 s1 h0 h1 hle
    rw [egcdAux_succ]
    by_cases hr : r1 = 0
    · subst hr
      rw [if_pos rfl]
      simp [Int.gcd_zero_right, Int.natAbs_of_nonneg h0]
    · rw [if_neg hr]
      have hpos : 0 < r1 := lt_of_le_of_ne h1 (Ne.symm hr)
      have hm0 : 0 ≤ r0 % r1 := Int.emod_nonneg r0 hr
      have hmlt : r0 % r1 < r1 := Int.emod_lt_of_pos r0 hpos
      have hfuel : r0 % r1 ≤ (fuel : ℤ) := by
        have h2 : r0 % r1 < (fuel : ℤ) + 1 := by
          have : ((fuel + 1 : ℕ) : ℤ) = (fuel : ℤ) + 1 := by push_cast; ring
          rw [← this]; exact lt_of_lt_of_le hmlt hle
        omega
      rw [ih r1 (r0 % r1) s1 (s0 - r0 / r1 * s1) h1 hm0 hfuel]
      congr 1
      lift r0 to ℕ using h0 with a
      lift r1 to ℕ using h1 with b
      have hab : ((a : ℤ)) % ((b : ℤ)) = ((a % b : ℕ) : ℤ) := by
        rw [Int.ofNat_emod]
      rw [hab]
      rw [Int.gcd_natCast_natCast, Int.gcd_natCast_natCast]
      rw [Nat.gcd_comm b (a % b), ← Nat.gcd_rec, Nat.gcd_comm]

lemma mod_inverse_none (p k : ℤ) (h : k % p = 0) : mod_inverse k p = none := by
  unfold mod_inverse
  rw [if_pos h]

lemma mod_inverse_mul (q : ℕ) (k d : ℤ) (h : mod_inverse k (q : ℤ) = some d) :
    ((d : ℤ) : ZMod q) * ((k : ℤ) : ZMod q) = 1 := by
  unfold mod_inverse at h
  by_cases h0 : k % (q : ℤ) = 0
  · rw [if_pos h0] at h
    exact absurd h (by simp)
  · rw [if_neg h0] at h
    by_cases h1 : (egcdAux ((k % (q : ℤ)).toNat + 1) (q : ℤ) (k % (q : ℤ)) 0 1).1 = 1
    · rw [if_pos h1] at h
      have hd : d = (egcdAux ((k % (q : ℤ)).toNat + 1) (q : ℤ) (k % (q : ℤ)) 0 1).2 % (q : ℤ) :=
        (Option.some.injEq _ _ ▸ h).symm
      have hlin := egcdAux_linear q (k % (q : ℤ)) ((k % (q : ℤ)).toNat + 1)
        (q : ℤ) (k % (q : ℤ)) 0 1 (by push_cast; simp) (by simp)
      rw [h1] at hlin
      rw [hd, intCast_q_emod]
      rw [intCast_q_emod q k] at hlin
      push_cast at hlin
      exact hlin.symm
    · rw [if_neg h1] at h
      exact absurd h (by simp)

lemma mod_inverse_eq_inv (q : ℕ) [Fact q.Prime] (k d : ℤ)
    (h : mod_inverse k (q : ℤ) = some d) : ((d : ℤ) : ZMod q) = ((k : ℤ) : ZMod q)⁻¹ :=
  eq_inv_of_mul_eq_one_left (mod_inverse_mul q k d h)

lemma mod_inverse_isSome (q : ℕ) (hq : q.Prime) (k : ℤ) (h0 : k % (q : ℤ) ≠ 0) :
    (mod_inverse k (q : ℤ)).isSome := by
  have hqpos : 0 < (q : ℤ) := by exact_mod_cast hq.pos
  have hm := emod_nonneg_lt (q : ℤ) k hqpos
  have hfuel : k % (q : ℤ) ≤ (((k % (q : ℤ)).toNat + 1 : ℕ) : ℤ) := by
    push_cast
    rw [Int.toNat_of_nonneg hm.1]
    omega
  have hgcd := egcdAux_gcd ((k % (q : ℤ)).toNat + 1) (q : ℤ) (k % (q : ℤ)) 0 1
    (le_of_lt hqpos) hm.1 hfuel
  have h1 : Int.gcd (q : ℤ) (k % (q : ℤ)) = 1 := by
    have hnat : (k % (q : ℤ)).natAbs < q := by
      have := hm.2
      omega
    have hdvd : ¬ q ∣ (k % (q : ℤ)).natAbs := by
      intro hdv
      have hne : (k % (q : ℤ)).natAbs ≠ 0 := by
        intro hz
        exact h0 (Int.natAbs_eq_zero.mp hz)
      exact absurd (Nat.le_of_dvd (Nat.pos_of_ne_zero hne) hdv) (not_le.mpr hnat)
    have : Nat.Coprime q (k % (q : ℤ)).natAbs := (Nat.Prime.coprime_iff_not_dvd hq).mpr hdvd
    unfold Int.gcd
    simpa [Int.natAbs_ofNat] using this
  unfold mod_inverse
  rw [if_neg h0]
  rw [hgcd, h1]
  simp

/-! ## Discrete Fourier inversion over a field -/

lemma getD_map_range {α : Type} (N : ℕ) (f : ℕ → α) (d : α) (j : ℕ) (hj : j < N) :
    ((List.range N).map f).getD j d = f j := by
  rw [List.getD_eq_getElem _ _ (by simpa using hj)]
  simp

lemma evalPolyF_eq_sum {F : Type} [Field F] (cs : List F) (x : F) :
    evalPolyF cs x = ∑ i ∈ Finset.range cs.length, cs.getD i 0 * x ^ i := by
  induction cs with
  | nil => simp [evalPolyF_nil]
  | cons c cs ih =>
    rw [evalPolyF_cons, ih, List.length_cons, Finset.sum_range_succ', Finset.mul_sum]
    simp only [List.getD_cons_succ, List.getD_cons_zero, pow_zero, mul_one]
    rw [add_comm]
    congr 1
    refine Finset.sum_congr rfl ?_
    intro i _
    ring

lemma sum_pow_eq_zero {F : Type} [Field F] (z : F) (N : ℕ) (hzN : z ^ N = 1) (hz : z ≠ 1) :
    ∑ i ∈ Finset.range N, z ^ i = 0 := by
  rw [geom_sum_eq hz, hzN]
  simp

lemma pow_inj_below_order {F : Type} [Field F] (w : F) (N : ℕ) (hord : orderOf w = N)
    (hw0 : w ≠ 0) : ∀ j k : ℕ, j < N → k < N → w ^ j = w ^ k → j = k := by
  have aux : ∀ a b : ℕ, a < b → b < N → w ^ a = w ^ b → False := by
    intro a b hab hbN h
    have hsplit : w ^ b = w ^ a * w ^ (b - a) := by
      rw [← pow_add]
      congr 1
      omega
    have h1 : w ^ a * 1 = w ^ a * w ^ (b - a) := by
      rw [mul_one]
      conv_lhs => rw [h]
      exact hsplit
    have h2 : (1 : F) = w ^ (b - a) := mul_left_cancel₀ (pow_ne_zero a hw0) h1
    have hdvd : orderOf w ∣ b - a := orderOf_dvd_of_pow_eq_one h2.symm
    rw [hord] at hdvd
    have : N ≤ b - a := Nat.le_of_dvd (by omega) hdvd
    omega
  intro j k hj hk h
  rcases Nat.lt_trichotomy j k with hlt | heq | hgt
  · exact absurd h fun hh => aux j k hlt hk hh
  · exact heq
  · exact absurd h.symm fun hh => aux k j hgt hj hh

lemma idftF_length {F : Type} [Field F] (v : List F) (w : F) :
    (idftF v w).length = v.length := by
  simp [idftF]

lemma idftF_eval {F : Type} [Field F] (v : List F) (w : F) (hord : orderOf w = v.length)
    (hN : ((v.length : ℕ) : F) ≠ 0) (j : ℕ) (hj : j < v.length) :
    evalPolyF (idftF v w) (w ^ j) = v.getD j 0 := by
  set N := v.length with hNdef
  have hNpos : 0 < N := lt_of_le_of_lt (Nat.zero_le j) hj
  have hw1 : w ^ N = 1 := by rw [← hord]; exact pow_orderOf_eq_one w
  have hw0 : w ≠ 0 := by
    intro h0
    rw [h0, zero_pow hNpos.ne'] at hw1
    exact zero_ne_one hw1
  rw [evalPolyF_eq_sum, idftF_length]
  have hIdft : ∀ i, i < N → (idftF v w).getD i 0 = (N : F)⁻¹ * evalPolyF v (w⁻¹ ^ i) := by
    intro i hi
    unfold idftF
    exact getD_map_range N _ 0 i hi
  rw [Finset.sum_congr rfl fun i hi => by
    rw [hIdft i (Finset.mem_range.mp hi), evalPolyF_eq_sum v]]
  have step1 : ∀ i ∈ Finset.range N,
      ((N : F)⁻¹ * ∑ k ∈ Finset.range N, v.getD k 0 * (w⁻¹ ^ i) ^ k) * (w ^ j) ^ i
        = ∑ k ∈ Finset.range N, v.getD k 0 * (N : F)⁻¹ * (w⁻¹ ^ k * w ^ j) ^ i := by
    intro i _
    rw [Finset.mul_sum, Finset.sum_mul]
    refine Finset.sum_congr rfl ?_
    intro k _
    rw [mul_pow]
    have hcomm : (w⁻¹ ^ i) ^ k = (w⁻¹ ^ k) ^ i := by
      rw [← pow_mul, ← pow_mul, Nat.mul_comm]
    rw [hcomm]
    ring
  rw [Finset.sum_congr rfl step1, Finset.sum_comm]
  rw [Finset.sum_congr rfl fun k _ =>
    (Finset.mul_sum (Finset.range N) (fun i => (w⁻¹ ^ k * w ^ j) ^ i)
      (v.getD k 0 * (N : F)⁻¹)).symm]
  have hinner : ∀ k, k < N →
      (∑ i ∈ Finset.range N, (w⁻¹ ^ k * w ^ j) ^ i) = if k = j then (N : F) else 0 := by
    intro k hk
    by_cases hkj : k = j
    · subst hkj
      have hone : w⁻¹ ^ k * w ^ k = 1 := by
        rw [← mul_pow, inv_mul_cancel₀ hw0, one_pow]
      rw [if_pos rfl, hone]
      simp
    · rw [if_neg hkj]
      refine sum_pow_eq_zero _ N ?_ ?_
      · rw [mul_pow]
        have e1 : (w⁻¹ ^ k) ^ N = ((w ^ N)⁻¹) ^ k := by
          rw [← pow_mul, Nat.mul_comm, pow_mul, inv_pow]
        have e2 : (w ^ j) ^ N = (w ^ N) ^ j := by
          rw [← pow_mul, Nat.mul_comm, pow_mul]
        rw [e1, e2, hw1]
        simp
      · intro heq
        refine hkj ?_
        have hjk : w ^ j = w ^ k :=
          calc w ^ j = (w ^ k * w⁻¹ ^ k) * w ^ j := by
                rw [← mul_pow, mul_inv_cancel₀ hw0, one_pow, one_mul]
            _ = w ^ k * (w⁻¹ ^ k * w ^ j) := by ring
            _ = w ^ k := by rw [heq, mul_one]
        exact (pow_inj_below_order w N hord hw0 j k hj hk hjk).symm
  rw [Finset.sum_congr rfl fun k hk => by rw [hinner k (Finset.mem_range.mp hk)]]
  have hsplit : ∀ k : ℕ, v.getD k 0 * (N : F)⁻¹ * (if k = j then (N : F) else 0)
      = if k = j then v.getD k 0 * ((N : F)⁻¹ * (N : F)) else 0 := by
    intro k
    split <;> ring
  rw [Finset.sum_congr rfl fun k _ => hsplit k, Finset.sum_ite_eq' (Finset.range N) j]
  rw [if_pos (Finset.mem_range.mpr hj), inv_mul_cancel₀ hN, mul_one]

/-! ## Newton interpolation over a field -/

lemma ddF_nil_left {F : Type} [Field F] (ys : List F) : ddF ([] : List F) ys = [] := by
  cases ys <;> rfl

lemma ddF_nil_right {F : Type} [Field F] (xs : List F) : ddF xs ([] : List F) = [] := by
  cases xs <;> rfl

lemma ddF_cons_cons {F : Type} [Field F] (x0 y0 : F) (xs ys : List F) :
    ddF (x0 :: xs) (y0 :: ys) =
      y0 :: ddF xs (List.zipWith (fun xi yi => (yi - y0) * (xi - x0)⁻¹) xs ys) := rfl

lemma ddF_length {F : Type} [Field F] :
    ∀ xs ys : List F, (ddF xs ys).length = min xs.length ys.length
  | [], ys => by rw [ddF_nil_left]; simp
  | x0 :: xs, [] => by rw [ddF_nil_right]; simp
  | x0 :: xs, y0 :: ys => by
    rw [ddF_cons_cons, List.length_cons, ddF_length xs _, List.length_zipWith]
    simp only [List.length_cons]
    omega

lemma ddF_node_eval {F : Type} [Field F] :
    ∀ (xs ys : List F), ys.length = xs.length → xs.Pairwise (fun a b => a ≠ b) →
      ∀ i (hi : i < xs.length) (hi2 : i < ys.length),
        newtonEvalF (ddF xs ys) xs (xs[i]) = ys[i]
  | [], ys, hlen, hpw => by intro i hi hi2; exact absurd hi (by simp)
  | x0 :: xs, [], hlen, hpw => by simp at hlen
  | x0 :: xs, y0 :: ys, hlen, hpw => by
    intro i hi hi2
    rw [ddF_cons_cons]
    cases i with
    | zero =>
      rw [newtonEvalF_cons_cons]
      simp
    | succ i =>
      have hlen0 : ys.length = xs.length := by simpa using hlen
      have hxslen : i < xs.length := by simpa using hi
      have hyslen : i < ys.length := by simpa using hi2
      have hx : (x0 :: xs)[i + 1] = xs[i] := by
        simp
      have hy : (y0 :: ys)[i + 1] = ys[i] := by
        simp
      rw [newtonEvalF_cons_cons, hx, hy]
      have hrowlen : (List.zipWith (fun xi yi => (yi - y0) * (xi - x0)⁻¹) xs ys).length
          = xs.length := by
        rw [List.length_zipWith, hlen0]
        exact min_self _
      have hpw2 := List.pairwise_cons.mp hpw
      have ih := ddF_node_eval xs
        (List.zipWith (fun xi yi => (yi - y0) * (xi - x0)⁻¹) xs ys) hrowlen hpw2.2
        i hxslen (by rw [hrowlen]; exact hxslen)
      rw [ih]
      rw [List.getElem_zipWith]
      have hne : xs[i] - x0 ≠ 0 :=
        sub_ne_zero_of_ne (Ne.symm (hpw2.1 _ (List.getElem_mem hxslen)))
      calc y0 + (xs[i] - x0) * ((ys[i] - y0) * (xs[i] - x0)⁻¹)
          = y0 + (ys[i] - y0) * ((xs[i] - x0) * (xs[i] - x0)⁻¹) := by ring
        _ = y0 + (ys[i] - y0) * 1 := by rw [mul_inv_cancel₀ hne]
        _ = ys[i] := by ring

lemma newtonPoly_nil {F : Type} [Field F] (xs : List F) :
    newtonPoly ([] : List F) xs = 0 := by
  cases xs <;> rfl

lemma newtonPoly_cons_nil {F : Type} [Field F] (c : F) (cs : List F) :
    newtonPoly (c :: cs) [] = Polynomial.C c := rfl

lemma newtonPoly_cons_cons {F : Type} [Field F] (c x0 : F) (cs xs : List F) :
    newtonPoly (c :: cs) (x0 :: xs) =
      Polynomial.C c + (Polynomial.X - Polynomial.C x0) * newtonPoly cs xs := rfl

lemma newtonPoly_eval {F : Type} [Field F] :
    ∀ (cs xs : List F) (x : F), Polynomial.eval x (newtonPoly cs xs) = newtonEvalF cs xs x
  | [], xs, x => by rw [newtonPoly_nil, newtonEvalF_nil]; simp
  | c :: cs, [], x => by rw [newtonPoly_cons_nil, newtonEvalF_cons_nil]; simp
  | c :: cs, x0 :: xs, x => by
    rw [newtonPoly_cons_cons, newtonEvalF_cons_cons]
    simp [newtonPoly_eval cs xs x]

lemma newtonPoly_degree {F : Type} [Field F] :
    ∀ cs xs : List F, (newtonPoly cs xs).degree < ((cs.length : ℕ) : WithBot ℕ)
  | [], xs => by
    rw [newtonPoly_nil, Polynomial.degree_zero]
    exact WithBot.bot_lt_coe _
  | c :: cs, [] => by
    rw [newtonPoly_cons_nil]
    refine lt_of_le_of_lt Polynomial.degree_C_le ?_
    exact_mod_cast Nat.succ_pos cs.length
  | c :: cs, x0 :: xs => by
    rw [newtonPoly_cons_cons]
    refine lt_of_le_of_lt (Polynomial.degree_add_le _ _) ?_
    rw [max_lt_iff]
    constructor
    · refine lt_of_le_of_lt Polynomial.degree_C_le ?_
      exact_mod_cast Nat.succ_pos cs.length
    · refine lt_of_le_of_lt (Polynomial.degree_mul_le _ _) ?_
      rw [Polynomial.degree_X_sub_C]
      have ih := newtonPoly_degree cs xs
      have hcast : ((cs.length + 1 : ℕ) : WithBot ℕ) = 1 + ((cs.length : ℕ) : WithBot ℕ) := by
        push_cast
        ring
      rw [List.length_cons, hcast]
      exact WithBot.add_lt_add_left (by simp) ih

lemma listToPoly_nil {F : Type} [Field F] : listToPoly ([] : List F) = 0 := rfl

lemma listToPoly_cons {F : Type} [Field F] (c : F) (cs : List F) :
    listToPoly (c :: cs) = Polynomial.C c + Polynomial.X * listToPoly cs := rfl

lemma listToPoly_eval {F : Type} [Field F] :
    ∀ (cs : List F) (x : F), Polynomial.eval x (listToPoly cs) = evalPolyF cs x
  | [], x => by rw [listToPoly_nil, evalPolyF_nil]; simp
  | c :: cs, x => by
    rw [listToPoly_cons, evalPolyF_cons]
    simp [listToPoly_eval cs x]

lemma listToPoly_degree {F : Type} [Field F] :
    ∀ cs : List F, (listToPoly cs).degree < ((cs.length : ℕ) : WithBot ℕ)
  | [] => by
    rw [listToPoly_nil, Polynomial.degree_zero]
    exact WithBot.bot_lt_coe _
  | c :: cs => by
    rw [listToPoly_cons]
    refine lt_of_le_of_lt (Polynomial.degree_add_le _ _) ?_
    rw [max_lt_iff]
    constructor
    · refine lt_of_le_of_lt Polynomial.degree_C_le ?_
      exact_mod_cast Nat.succ_pos cs.length
    · refine lt_of_le_of_lt (Polynomial.degree_mul_le _ _) ?_
      rw [Polynomial.degree_X]
      have ih := listToPoly_degree cs
      have hcast : ((cs.length + 1 : ℕ) : WithBot ℕ) = 1 + ((cs.length : ℕ) : WithBot ℕ) := by
        push_cast
        ring
      rw [List.length_cons, hcast]
      exact WithBot.add_lt_add_left (by simp) ih

lemma evalPolyF_replicate_zero {F : Type} [Field F] (m : ℕ) (x : F) :
    evalPolyF (List.replicate m 0) x = 0 := by
  induction m with
  | zero => rfl
  | succ m ih =>
    rw [List.replicate_succ, evalPolyF_cons, ih]
    ring

lemma evalPolyF_append_zeros {F : Type} [Field F] (cs : List F) (m : ℕ) (x : F) :
    evalPolyF (cs ++ List.replicate m 0) x = evalPolyF cs x := by
  induction cs with
  | nil =>
    rw [List.nil_append, evalPolyF_replicate_zero, evalPolyF_nil]
  | cons c cs ih =>
    rw [List.cons_append, evalPolyF_cons, evalPolyF_cons, ih]

lemma newton_fits {F : Type} [Field F] (xs ys : List F) (hlen : ys.length = xs.length)
    (hpw : xs.Pairwise (fun a b => a ≠ b)) (Q : Polynomial F)
    (hdeg : Q.degree < ((xs.length : ℕ) : WithBot ℕ))
    (hvals : ∀ i, i < xs.length → ys.getD i 0 = Polynomial.eval (xs.getD i 0) Q) (x : F) :
    newtonEvalF (ddF xs ys) xs x = Polynomial.eval x Q := by
  have hnodup : xs.Nodup := hpw
  have hddlen : (ddF xs ys).length = xs.length := by
    rw [ddF_length, hlen]
    exact min_self _
  have hinj : Set.InjOn (fun i => xs.getD i 0) (Finset.range xs.length) := by
    intro i hi j hj hij
    simp only [Finset.coe_range, Set.mem_Iio] at hi hj
    simp only at hij
    rw [List.getD_eq_getElem _ _ hi, List.getD_eq_getElem _ _ hj] at hij
    exact (List.Nodup.getElem_inj_iff hnodup).mp hij
  have hdeg1 : (newtonPoly (ddF xs ys) xs).degree < ((Finset.range xs.length).card : WithBot ℕ) := by
    rw [Finset.card_range]
    have hlt := newtonPoly_degree (ddF xs ys) xs
    rw [hddlen] at hlt
    exact hlt
  have hdeg2 : Q.degree < ((Finset.range xs.length).card : WithBot ℕ) := by
    rw [Finset.card_range]
    exact hdeg
  have heval : ∀ i ∈ Finset.range xs.length,
      Polynomial.eval ((fun i => xs.getD i 0) i) (newtonPoly (ddF xs ys) xs)
        = Polynomial.eval ((fun i => xs.getD i 0) i) Q := by
    intro i hi
    have hi' : i < xs.length := Finset.mem_range.mp hi
    have hi2 : i < ys.length := by rw [hlen]; exact hi'
    simp only
    rw [newtonPoly_eval, List.getD_eq_getElem _ _ hi']
    rw [ddF_node_eval xs ys hlen hpw i hi' hi2]
    have := hvals i hi'
    rw [List.getD_eq_getElem _ _ hi2, List.getD_eq_getElem _ _ hi'] at this
    exact this
  have heq : newtonPoly (ddF xs ys) xs = Q :=
    @Polynomial.eq_of_degrees_lt_of_eval_index_eq F _ _ _ _ ℕ (fun i => xs.getD i 0)
      (Finset.range xs.length) hinj hdeg1 hdeg2 heval
  rw [← heq, newtonPoly_eval]

/-! ## Bridging the fallible integer interpolator to the field layer -/

lemma ddRow_nil_left (x0 y0 p : ℤ) (ys : List ℤ) : ddRow x0 y0 [] ys p = some [] := by
  cases ys <;> rfl

lemma ddRow_nil_right (x0 y0 p : ℤ) (xs : List ℤ) : ddRow x0 y0 xs [] p = some [] := by
  cases xs <;> rfl

lemma ddRow_cons_cons (x0 y0 xi yi p : ℤ) (xs ys : List ℤ) :
    ddRow x0 y0 (xi :: xs) (yi :: ys) p =
      (mod_inverse (xi - x0) p).bind fun d =>
        (ddRow x0 y0 xs ys p).bind fun rest =>
          some ((yi - y0) * d % p :: rest) := rfl

lemma dd_nil_left (p : ℤ) (ys : List ℤ) : divided_differences [] ys p = some [] := by
  cases ys <;> rfl

lemma dd_cons_nil (x0 p : ℤ) (xs : List ℤ) :
    divided_differences (x0 :: xs) [] p = some [] := rfl

lemma dd_cons_cons (x0 y0 p : ℤ) (xs ys : List ℤ) :
    divided_differences (x0 :: xs) (y0 :: ys) p =
      (ddRow x0 y0 xs ys p).bind fun row =>
        (divided_differences xs row p).bind fun rest =>
          some (y0 % p :: rest) := rfl

lemma ddRow_some_length (x0 y0 p : ℤ) :
    ∀ (xs ys row : List ℤ), ddRow x0 y0 xs ys p = some row → ys.length = xs.length →
      row.length = xs.length
  | [], ys, row => by
    rw [ddRow_nil_left]
    intro h hlen
    cases h
    simp
  | xi :: xs, [], row => by
    intro h hlen
    simp at hlen
  | xi :: xs, yi :: ys, row => by
    intro h hlen
    rw [ddRow_cons_cons] at h
    obtain ⟨d, hd, h2⟩ := Option.bind_eq_some.mp h
    obtain ⟨rest, hrest, h3⟩ := Option.bind_eq_some.mp h2
    cases h3
    have hlen2 : ys.length = xs.length := by simpa using hlen
    simp [ddRow_some_length x0 y0 p xs ys rest hrest hlen2]

lemma ddRow_cast (q : ℕ) [Fact q.Prime] (x0 y0 : ℤ) :
    ∀ (xs ys row : List ℤ), ddRow x0 y0 xs ys (q : ℤ) = some row →
      ys.length = xs.length →
      row.map (fun c => ((c : ℤ) : ZMod q)) =
        List.zipWith (fun a b => (b - ((y0 : ℤ) : ZMod q)) * (a - ((x0 : ℤ) : ZMod q))⁻¹)
          (xs.map fun c => ((c : ℤ) : ZMod q)) (ys.map fun c => ((c : ℤ) : ZMod q))
  | [], ys, row => by
    rw [ddRow_nil_left]
    intro h hlen
    cases h
    simp
  | xi :: xs, [], row => by
    intro h hlen
    simp at hlen
  | xi :: xs, yi :: ys, row => by
    intro h hlen
    rw [ddRow_cons_cons] at h
    obtain ⟨d, hd, h2⟩ := Option.bind_eq_some.mp h
    obtain ⟨rest, hrest, h3⟩ := Option.bind_eq_some.mp h2
    cases h3
    have hlen2 : ys.length = xs.length := by simpa using hlen
    rw [List.map_cons, List.map_cons, List.map_cons, List.zipWith_cons_cons]
    congr 1
    · rw [intCast_q_emod]
      push_cast
      rw [mod_inverse_eq_inv q (xi - x0) d hd]
      push_cast
      ring
    · exact ddRow_cast q x0 y0 xs ys rest hrest hlen2

lemma dd_cast (q : ℕ) [Fact q.Prime] :
    ∀ (xs ys cs : List ℤ), divided_differences xs ys (q : ℤ) = some cs →
      ys.length = xs.length →
      cs.map (fun c => ((c : ℤ) : ZMod q)) =
        ddF (xs.map fun c => ((c : ℤ) : ZMod q)) (ys.map fun c => ((c : ℤ) : ZMod q))
  | [], ys, cs => by
    rw [dd_nil_left]
    intro h hlen
    cases h
    simp [ddF_nil_left]
  | x0 :: xs, [], cs => by
    intro h hlen
    simp at hlen
  | x0 :: xs, y0 :: ys, cs => by
    intro h hlen
    rw [dd_cons_cons] at h
    obtain ⟨row, hrow, h2⟩ := Option.bind_eq_some.mp h
    obtain ⟨rest, hrest, h3⟩ := Option.bind_eq_some.mp h2
    cases h3
    have hlen2 : ys.length = xs.length := by simpa using hlen
    rw [List.map_cons, List.map_cons, List.map_cons, ddF_cons_cons]
    congr 1
    · rw [intCast_q_emod]
    · have hrowlen : row.length = xs.length :=
        ddRow_some_length x0 y0 (q : ℤ) xs ys row hrow hlen2
      rw [dd_cast q xs row rest hrest hrowlen]
      rw [ddRow_cast q x0 y0 xs ys row hrow hlen2]

lemma ddRow_isSome (q : ℕ) (hq : q.Prime) (x0 y0 : ℤ) :
    ∀ xs ys : List ℤ, (∀ xi ∈ xs, (xi - x0) % (q : ℤ) ≠ 0) →
      (ddRow x0 y0 xs ys (q : ℤ)).isSome
  | [], ys => by
    rw [ddRow_nil_left]
    intro _
    rfl
  | xi :: xs, [] => by
    rw [ddRow_nil_right]
    intro _
    rfl
  | xi :: xs, yi :: ys => by
    intro hne
    rw [ddRow_cons_cons]
    obtain ⟨d, hd⟩ := Option.isSome_iff_exists.mp
      (mod_inverse_isSome q hq (xi - x0) (hne xi (by simp)))
    obtain ⟨rest, hrest⟩ := Option.isSome_iff_exists.mp
      (ddRow_isSome q hq x0 y0 xs ys fun z hz => hne z (by simp [hz]))
    rw [hd, hrest]
    rfl

lemma dd_isSome (q : ℕ) (hq : q.Prime) :
    ∀ xs ys : List ℤ, xs.Pairwise (fun a b => (b - a) % (q : ℤ) ≠ 0) →
      (divided_differences xs ys (q : ℤ)).isSome
  | [], ys => by
    rw [dd_nil_left]
    intro _
    rfl
  | x0 :: xs, [] => by
    rw [dd_cons_nil]
    intro _
    rfl
  | x0 :: xs, y0 :: ys => by
    intro hpw
    have hpw2 := List.pairwise_cons.mp hpw
    rw [dd_cons_cons]
    obtain ⟨row, hrow⟩ := Option.isSome_iff_exists.mp
      (ddRow_isSome q hq x0 y0 xs ys fun z hz => hpw2.1 z hz)
    obtain ⟨rest, hrest⟩ := Option.isSome_iff_exists.mp
      (dd_isSome q hq xs row hpw2.2)
    rw [hrow, Option.some_bind, hrest]
    rfl

lemma ddRow_none (x0 y0 p : ℤ) :
    ∀ xs ys : List ℤ, ys.length = xs.length → (∃ xi ∈ xs, (xi - x0) % p = 0) →
      ddRow x0 y0 xs ys p = none
  | [], ys => by
    intro hlen hex
    simp at hex
  | xi :: xs, [] => by
    intro hlen
    simp at hlen
  | xi :: xs, yi :: ys => by
    intro hlen hex
    rw [ddRow_cons_cons]
    obtain ⟨z, hz, hz0⟩ := hex
    rcases List.mem_cons.mp hz with hzhead | hztail
    · subst hzhead
      rw [mod_inverse_none p _ hz0]
      rfl
    · cases hd : mod_inverse (xi - x0) p with
      | none => rfl
      | some d =>
        have hlen2 : ys.length = xs.length := by simpa using hlen
        rw [ddRow_none x0 y0 p xs ys hlen2 ⟨z, hztail, hz0⟩]
        rfl

lemma dd_none (p : ℤ) :
    ∀ xs ys : List ℤ, ys.length = xs.length →
      ¬ xs.Pairwise (fun a b => (b - a) % p ≠ 0) → divided_differences xs ys p = none
  | [], ys => by
    intro hlen hpw
    exact absurd List.Pairwise.nil hpw
  | x0 :: xs, [] => by
    intro hlen
    simp at hlen
  | x0 :: xs, y0 :: ys => by
    intro hlen hpw
    have hlen2 : ys.length = xs.length := by simpa using hlen
    rw [dd_cons_cons]
    by_cases hhead : ∀ b ∈ xs, (b - x0) % p ≠ 0
    · have htail : ¬ xs.Pairwise (fun a b => (b - a) % p ≠ 0) := by
        intro hp2
        exact hpw (List.pairwise_cons.mpr ⟨hhead, hp2⟩)
      cases hrow : ddRow x0 y0 xs ys p with
      | none => rfl
      | some row =>
        have hrowlen : row.length = xs.length :=
          ddRow_some_length x0 y0 p xs ys row hrow hlen2
        rw [Option.some_bind, dd_none p xs row hrowlen htail]
        rfl
    · push_neg at hhead
      obtain ⟨z, hz, hz0⟩ := hhead
      rw [ddRow_none x0 y0 p xs ys hlen2 ⟨z, hz, hz0⟩]
      rfl

/-! ## Bridging the inverse transform -/

lemma fft2_inverse_some_length (v : List ℤ) (w p : ℤ) (cs : List ℤ)
    (h : fft2_inverse v w p = some cs) : cs.length = v.length := by
  unfold fft2_inverse at h
  obtain ⟨wInv, hw, h2⟩ := Option.bind_eq_some.mp h
  obtain ⟨nInv, hn, h3⟩ := Option.bind_eq_some.mp h2
  cases h3
  simp

lemma fft2_inverse_cast (q : ℕ) [Fact q.Prime] (v : List ℤ) (w : ℤ) (cs : List ℤ)
    (h : fft2_inverse v w (q : ℤ) = some cs) :
    cs.map (fun c => ((c : ℤ) : ZMod q)) =
      idftF (v.map fun c => ((c : ℤ) : ZMod q)) ((w : ZMod q)) := by
  unfold fft2_inverse at h
  obtain ⟨wInv, hw, h2⟩ := Option.bind_eq_some.mp h
  obtain ⟨nInv, hn, h3⟩ := Option.bind_eq_some.mp h2
  cases h3
  unfold idftF
  rw [List.map_map, List.length_map]
  refine List.map_congr_left ?_
  intro j hj
  simp only [Function.comp_apply]
  rw [intCast_q_emod]
  push_cast
  rw [evalPoly_cast, mod_pow_cast]
  rw [mod_inverse_eq_inv q _ _ hn, mod_inverse_eq_inv q _ _ hw]
  push_cast
  ring

/-! ## Helper facts for the pipeline lemmas -/

lemma int_eq_of_cast_eq (q : ℕ) (a b : ℤ) (ha0 : 0 ≤ a) (ha : a < (q : ℤ))
    (hb0 : 0 ≤ b) (hb : b < (q : ℤ)) (h : ((a : ℤ) : ZMod q) = ((b : ℤ) : ZMod q)) :
    a = b := by
  have hmod := (ZMod.intCast_eq_intCast_iff' a b q).mp h
  rwa [Int.emod_eq_of_lt ha0 ha, Int.emod_eq_of_lt hb0 hb] at hmod

lemma order_cast_ne_zero (q : ℕ) [Fact q.Prime] (a : ZMod q) (N : ℕ)
    (hord : orderOf a = N) (hpos : 0 < N) : ((N : ℕ) : ZMod q) ≠ 0 := by
  have ha1 : a ^ N = 1 := by rw [← hord]; exact pow_orderOf_eq_one a
  have ha0 : a ≠ 0 := by
    intro h0
    rw [h0, zero_pow hpos.ne'] at ha1
    exact zero_ne_one ha1
  have hdvd : N ∣ q - 1 := by
    rw [← hord]
    exact orderOf_dvd_of_pow_eq_one (ZMod.pow_card_sub_one_eq_one ha0)
  have hq2 : 2 ≤ q := (Fact.out : q.Prime).two_le
  have hle : N ≤ q - 1 := Nat.le_of_dvd (by omega) hdvd
  intro h0
  have hdv2 := (ZMod.natCast_zmod_eq_zero_iff_dvd N q).mp h0
  have := Nat.le_of_dvd hpos hdv2
  omega

lemma cast_root_ne_zero (q : ℕ) [Fact q.Prime] (w : ℤ) (N : ℕ)
    (hord : orderOf ((w : ZMod q)) = N) (hpos : 0 < N) : ((w : ℤ) : ZMod q) ≠ 0 := by
  have ha1 : ((w : ZMod q)) ^ N = 1 := by rw [← hord]; exact pow_orderOf_eq_one _
  intro h0
  rw [h0, zero_pow hpos.ne'] at ha1
  exact zero_ne_one ha1

lemma getD_map_cast (q : ℕ) (l : List ℤ) (i : ℕ) (hi : i < l.length) :
    (l.map fun c => ((c : ℤ) : ZMod q)).getD i 0 = ((l.getD i 0 : ℤ) : ZMod q) := by
  rw [List.getD_eq_getElem _ _ (by simpa using hi), List.getElem_map,
    List.getD_eq_getElem _ _ hi]

lemma getD_map_natfun (f : ℕ → ℤ) (l : List ℕ) (i : ℕ) (hi : i < l.length) :
    (l.map f).getD i 0 = f (l.getD i 0) := by
  rw [List.getD_eq_getElem _ _ (by simpa using hi), List.getElem_map,
    List.getD_eq_getElem _ _ hi]

lemma tail_getD (l : List ℤ) (i : ℕ) (h : l ≠ []) : l.tail.getD i 0 = l.getD (i + 1) 0 := by
  cases l with
  | nil => exact absurd rfl h
  | cons e es => simp

lemma getD_take (l : List ℤ) (k e : ℕ) (h : e < (l.take k).length) :
    (l.take k).getD e 0 = l.getD e 0 := by
  have h2 : e < l.length := lt_of_lt_of_le h (by simp)
  rw [List.getD_eq_getElem _ _ h, List.getD_eq_getElem _ _ h2]
  exact List.getElem_take l

lemma points_pairwise (q : ℕ) [Fact q.Prime] (w : ℤ) (n : ℕ)
    (hord : orderOf ((w : ZMod q)) = n + 1) (indices : List ℕ)
    (hnd : indices.Nodup) (hrange : ∀ i ∈ indices, i < n) :
    (indices.map fun i => mod_pow w (i + 1) (q : ℤ)).Pairwise
      (fun a b => (b - a) % (q : ℤ) ≠ 0) := by
  have hw0 : ((w : ℤ) : ZMod q) ≠ 0 := cast_root_ne_zero q w (n + 1) hord (Nat.succ_pos n)
  rw [List.pairwise_map, List.pairwise_iff_getElem]
  intro i j hi hj hij heq
  have hne : indices[i] ≠ indices[j] := by
    intro habs
    exact absurd ((List.Nodup.getElem_inj_iff hnd).mp habs) (Nat.ne_of_lt hij)
  have hcast : ((mod_pow w (indices[j] + 1) (q : ℤ)
      - mod_pow w (indices[i] + 1) (q : ℤ) : ℤ) : ZMod q) = 0 := by
    rw [← intCast_q_emod, heq]
    simp
  push_cast at hcast
  rw [mod_pow_cast, mod_pow_cast] at hcast
  have hpows : ((w : ZMod q)) ^ (indices[j] + 1) = ((w : ZMod q)) ^ (indices[i] + 1) :=
    sub_eq_zero.mp hcast
  have hji := pow_inj_below_order ((w : ZMod q)) (n + 1) hord hw0
    (indices[j] + 1) (indices[i] + 1)
    (by have := hrange _ (List.getElem_mem hj); omega)
    (by have := hrange _ (List.getElem_mem hi); omega) hpows
  exact hne (by omega)

lemma pairwise_points_cast (q : ℕ) [Fact q.Prime] (points : List ℤ)
    (hpw : points.Pairwise fun a b => (b - a) % (q : ℤ) ≠ 0) :
    (points.map fun c => ((c : ℤ) : ZMod q)).Pairwise fun a b => a ≠ b := by
  rw [List.pairwise_map]
  refine hpw.imp ?_
  intro a b hab habs
  refine hab ?_
  have : ((b - a : ℤ) : ZMod q) = 0 := by
    push_cast
    rw [habs]
    ring
  have hdvd := (ZMod.intCast_zmod_eq_zero_iff_dvd _ q).mp this
  exact Int.emod_eq_zero_of_dvd hdvd

/-! ## Master lemmas: what `share` and `reconstruct` compute, over `ZMod q` -/

lemma share_spec (pss : PackedSecretSharing) (q : ℕ) [Fact q.Prime]
    (hprime : pss.prime = (q : ℤ))
    (hordsec : orderOf ((pss.omega_secrets : ZMod q)) = reconstruct_limit pss)
    (hRn : reconstruct_limit pss ≤ pss.share_count + 1)
    (secrets randomness shs : List ℤ)
    (hsh : share pss secrets randomness = some shs) :
    secrets.length = pss.secret_count ∧ randomness.length = pss.threshold ∧
      shs.length = pss.share_count ∧
      ∃ P : Polynomial (ZMod q),
        P.degree < ((reconstruct_limit pss : ℕ) : WithBot ℕ) ∧
        (∀ i, i < pss.share_count →
          ((shs.getD i 0 : ℤ) : ZMod q) =
            Polynomial.eval (((pss.omega_shares : ZMod q)) ^ (i + 1)) P) ∧
        (∀ e, e < reconstruct_limit pss →
          Polynomial.eval (((pss.omega_secrets : ZMod q)) ^ e) P =
            (((0 :: (secrets ++ randomness)).getD e 0 : ℤ) : ZMod q)) := by
  unfold share at hsh
  have hs1 : secrets.length = pss.secret_count := by
    by_contra hne
    rw [if_pos hne] at hsh
    simp at hsh
  rw [if_neg (by simp [hs1])] at hsh
  have hs2 : randomness.length = pss.threshold := by
    by_contra hne
    rw [if_pos hne] at hsh
    simp at hsh
  rw [if_neg (by simp [hs2])] at hsh
  obtain ⟨poly, hpoly, h2⟩ := Option.bind_eq_some.mp hsh
  obtain ⟨evals, hevals, h3⟩ := Option.bind_eq_some.mp h2
  have hshs : shs = evals.tail := by
    cases h3
    rfl
  unfold recover_polynomial at hpoly
  have hvlen : (0 :: (secrets ++ randomness)).length = reconstruct_limit pss := by
    by_contra hne
    rw [if_pos hne] at hpoly
    simp at hpoly
  rw [if_neg (by simp [hvlen]), hprime] at hpoly
  have hplen : poly.length = reconstruct_limit pss := by
    rw [fft2_inverse_some_length _ _ _ _ hpoly, hvlen]
  have hpolyF := fft2_inverse_cast q _ _ _ hpoly
  unfold evaluate_polynomial at hevals
  have hpadlen : (poly ++ List.replicate (pss.share_count + 1 - reconstruct_limit pss) 0).length
      = pss.share_count + 1 := by
    simp [hplen]
    omega
  rw [if_neg (by simp [hpadlen]), hprime] at hevals
  have hevals2 : evals = fft3 (poly ++ List.replicate
      (pss.share_count + 1 - reconstruct_limit pss) 0) pss.omega_shares (q : ℤ) := by
    cases hevals
    rfl
  have hevlen : evals.length = pss.share_count + 1 := by
    rw [hevals2]
    unfold fft3
    simp [hpadlen]
  have hevne : evals ≠ [] := by
    intro habs
    rw [habs] at hevlen
    simp at hevlen
  have hshlen : shs.length = pss.share_count := by
    rw [hshs, List.length_tail, hevlen]
    omega
  refine ⟨hs1, hs2, hshlen, listToPoly (poly.map fun c => ((c : ℤ) : ZMod q)), ?_, ?_, ?_⟩
  · have hdeg := listToPoly_degree (poly.map fun c => ((c : ℤ) : ZMod q))
    rwa [List.length_map, hplen] at hdeg
  · intro i hi
    rw [hshs, tail_getD evals i hevne, hevals2]
    unfold fft3
    rw [getD_map_range _ _ 0 (i + 1) (by rw [hpadlen]; omega)]
    rw [evalPoly_cast, mod_pow_cast]
    rw [listToPoly_eval]
    rw [List.map_append, List.map_replicate]
    have hz : (((0 : ℤ)) : ZMod q) = 0 := by simp
    rw [hz, evalPolyF_append_zeros]
  · intro e he
    rw [listToPoly_eval, hpolyF]
    have hvflen : ((0 :: (secrets ++ randomness)).map fun c => ((c : ℤ) : ZMod q)).length
        = reconstruct_limit pss := by
      rw [List.length_map, hvlen]
    rw [idftF_eval _ _ (by rw [hvflen]; exact hordsec)
      (by rw [hvflen]; exact order_cast_ne_zero q _ _ hordsec (by unfold reconstruct_limit; omega))
      e (by rw [hvflen]; exact he)]
    exact getD_map_cast q _ e (by rw [hvlen]; exact he)

lemma reconstruct_spec (pss : PackedSecretSharing) (q : ℕ) [Fact q.Prime]
    (hprime : pss.prime = (q : ℤ))
    (hordsh : orderOf ((pss.omega_shares : ZMod q)) = pss.share_count + 1)
    (indices : List ℕ) (ws : List ℤ) (Q : Polynomial (ZMod q))
    (hlen : ws.length = indices.length)
    (hRle : reconstruct_limit pss ≤ ws.length)
    (hnd : indices.Nodup) (hrange : ∀ i ∈ indices, i < pss.share_count)
    (hdeg : Q.degree < ((indices.length : ℕ) : WithBot ℕ))
    (hvals : ∀ t, t < indices.length →
      ((ws.getD t 0 : ℤ) : ZMod q) =
        Polynomial.eval (((pss.omega_shares : ZMod q)) ^ (indices.getD t 0 + 1)) Q) :
    ∃ out, reconstruct pss indices ws = some out ∧
      out.length = min pss.secret_count (reconstruct_limit pss - 1) ∧
      ∀ e, e < out.length →
        0 ≤ out.getD e 0 ∧ out.getD e 0 < (q : ℤ) ∧
        ((out.getD e 0 : ℤ) : ZMod q) =
          Polynomial.eval (((pss.omega_secrets : ZMod q)) ^ (e + 1)) Q := by
  have hq2 : 2 ≤ q := (Fact.out : q.Prime).two_le
  have hqpos : (0 : ℤ) < (q : ℤ) := by exact_mod_cast Nat.lt_of_lt_of_le Nat.zero_lt_two hq2
  have hpw := points_pairwise q pss.omega_shares pss.share_count hordsh indices hnd hrange
  have hptlen : (indices.map fun i => mod_pow pss.omega_shares (i + 1) (q : ℤ)).length
      = indices.length := by simp
  obtain ⟨cs, hcs⟩ := Option.isSome_iff_exists.mp
    (dd_isSome q (Fact.out : q.Prime)
      (indices.map fun i => mod_pow pss.omega_shares (i + 1) (q : ℤ)) ws hpw)
  refine ⟨((List.range (reconstruct_limit pss - 1)).map fun e =>
      newton_evaluate cs (indices.map fun i => mod_pow pss.omega_shares (i + 1) (q : ℤ))
        (mod_pow pss.omega_secrets (e + 1) (q : ℤ)) (q : ℤ)).take pss.secret_count,
    ?_, ?_, ?_⟩
  · unfold reconstruct
    rw [if_neg (by simp [hlen]), if_neg (not_lt.mpr hRle), hprime, hcs]
  · simp
  · intro e he
    have hlentake : e < ((List.range (reconstruct_limit pss - 1)).map fun e =>
        newton_evaluate cs (indices.map fun i => mod_pow pss.omega_shares (i + 1) (q : ℤ))
          (mod_pow pss.omega_secrets (e + 1) (q : ℤ)) (q : ℤ)).length := by
      simp at he ⊢
      omega
    rw [getD_take _ _ _ (by simpa using he),
      getD_map_range _ _ 0 e (by simp at hlentake ⊢; omega)]
    refine ⟨(newton_evaluate_bounds (q : ℤ) hqpos _ _ _).1,
      (newton_evaluate_bounds (q : ℤ) hqpos _ _ _).2, ?_⟩
    rw [newton_evaluate_cast, mod_pow_cast]
    have hwslen : ws.length
        = (indices.map fun i => mod_pow pss.omega_shares (i + 1) (q : ℤ)).length := by
      rw [hptlen, hlen]
    rw [dd_cast q _ _ _ hcs hwslen]
    refine newton_fits _ _ (by simp [hlen]) (pairwise_points_cast q _ hpw) Q
      (by rw [List.length_map, hptlen]; exact hdeg) ?_ _
    intro t ht
    rw [List.length_map, hptlen] at ht
    rw [getD_map_cast q ws t (by rw [hlen]; exact ht),
      getD_map_cast q _ t (by rw [hptlen]; exact ht),
      getD_map_natfun _ _ t ht, mod_pow_cast]
    exact hvals t ht

/-! ## Validity of the two small preset configurations -/

lemma validPSS_4_8_3 : ValidPSS PSS_4_8_3 433 := by
  refine ⟨by norm_num, by decide, ?_, ?_, by decide⟩
  · rw [show ((PSS_4_8_3.omega_secrets : ZMod 433)) = (354 : ZMod 433) by decide]
    rw [orderOf_eq_iff (by decide)]
    exact ⟨by decide, by decide⟩
  · rw [show ((PSS_4_8_3.omega_shares : ZMod 433)) = (150 : ZMod 433) by decide]
    rw [orderOf_eq_iff (by decide)]
    exact ⟨by decide, by decide⟩

lemma validPSS_4_26_3 : ValidPSS PSS_4_26_3 433 := by
  refine ⟨by norm_num, by decide, ?_, ?_, by decide⟩
  · rw [show ((PSS_4_26_3.omega_secrets : ZMod 433)) = (354 : ZMod 433) by decide]
    rw [orderOf_eq_iff (by decide)]
    exact ⟨by decide, by decide⟩
  · rw [show ((PSS_4_26_3.omega_shares : ZMod 433)) = (17 : ZMod 433) by decide]
    rw [orderOf_eq_iff (by decide)]
    exact ⟨by decide, by decide⟩

lemma getD_range (n t : ℕ) (ht : t < n) : (List.range n).getD t 0 = t := by
  rw [List.getD_eq_getElem _ _ (by simpa using ht), List.getElem_range]

lemma values_getD_succ (secrets randomness : List ℤ) (i : ℕ) (hi : i < secrets.length) :
    (0 :: (secrets ++ randomness)).getD (i + 1) 0 = secrets.getD i 0 := by
  have hlen3 : i < (secrets ++ randomness).length := by
    rw [List.length_append]
    omega
  rw [List.getD_cons_succ, List.getD_eq_getElem _ _ hlen3,
    List.getElem_append_left hi, List.getD_eq_getElem _ _ hi]

lemma getD_zipWith (f : ℤ → ℤ → ℤ) (l1 l2 : List ℤ) (i : ℕ)
    (h1 : i < l1.length) (h2 : i < l2.length) :
    (List.zipWith f l1 l2).getD i 0 = f (l1.getD i 0) (l2.getD i 0) := by
  rw [List.getD_eq_getElem _ _ (by rw [List.length_zipWith]; omega), List.getElem_zipWith,
    List.getD_eq_getElem _ _ h1, List.getD_eq_getElem _ _ h2]

lemma degree_le_pred_of_lt (q : ℕ) [Fact q.Prime] (P : Polynomial (ZMod q)) (R : ℕ)
    (h : P.degree < ((R : ℕ) : WithBot ℕ)) : P.degree ≤ (((R - 1 : ℕ)) : WithBot ℕ) := by
  cases hd : P.degree with
  | bot => exact bot_le
  | coe d =>
    rw [hd] at h
    rw [Nat.cast_withBot] at h
    have hdR : d < R := WithBot.coe_lt_coe.mp h
    rw [Nat.cast_withBot]
    exact WithBot.coe_le_coe.mpr (by omega)

lemma nodup_of_points_pairwise (w p : ℤ) (indices : List ℕ)
    (hpw : (indices.map fun i => mod_pow w (i + 1) p).Pairwise fun a b => (b - a) % p ≠ 0) :
    indices.Nodup := by
  rw [List.pairwise_map] at hpw
  refine hpw.imp ?_
  intro a b hab habs
  refine hab ?_
  rw [habs]
  simp

lemma roundtrip_core (pss : PackedSecretSharing) (q : ℕ)
    (hv : ValidPSS pss q) (secrets randomness shs : List ℤ)
    (hbounds : ∀ x ∈ secrets, 0 ≤ x ∧ x < pss.prime)
    (hsh : share pss secrets randomness = some shs)
    (indices : List ℕ) (hnd : indices.Nodup)
    (hrange : ∀ i ∈ indices, i < pss.share_count)
    (hRlen : reconstruct_limit pss ≤ indices.length)
    (ws : List ℤ) (hwslen : ws.length = indices.length)
    (hwvals : ∀ t, t < indices.length → ws.getD t 0 = shs.getD (indices.getD t 0) 0) :
    reconstruct pss indices ws = some secrets := by
  obtain ⟨hq, hprime, hordsec, hordsh, hRn⟩ := hv
  haveI : Fact q.Prime := ⟨hq⟩
  obtain ⟨hs1, hs2, hshlen, P, hdeg, hshvals, hPvals⟩ :=
    share_spec pss q hprime hordsec (le_trans hRn (Nat.le_succ _))
      secrets randomness shs hsh
  obtain ⟨out, hout, houtlen, houtvals⟩ :=
    reconstruct_spec pss q hprime hordsh indices ws P
      (by rw [hwslen])
      (by rw [hwslen]; exact hRlen)
      hnd hrange
      (by
        refine lt_of_lt_of_le hdeg ?_
        exact_mod_cast hRlen)
      (by
        intro t ht
        have hidx : indices.getD t 0 < pss.share_count := by
          refine hrange _ ?_
          rw [List.getD_eq_getElem _ _ ht]
          exact List.getElem_mem ht
        rw [hwvals t ht]
        exact hshvals _ hidx)
  rw [hout]
  congr 1
  have hkR : pss.secret_count ≤ reconstruct_limit pss - 1 := by
    unfold reconstruct_limit
    omega
  have houtlen2 : out.length = pss.secret_count := by
    rw [houtlen]
    omega
  refine List.ext_getElem (by rw [houtlen2, hs1]) ?_
  intro i hi1 hi2
  have hie : i < out.length := hi1
  obtain ⟨hnn, hlt, hcast⟩ := houtvals i hie
  have hiR : i + 1 < reconstruct_limit pss := by
    rw [houtlen2] at hie
    unfold reconstruct_limit
    omega
  have hPv := hPvals (i + 1) hiR
  rw [values_getD_succ secrets randomness i hi2] at hPv
  have hsbound := hbounds (secrets.getD i 0)
    (by rw [List.getD_eq_getElem _ _ hi2]; exact List.getElem_mem hi2)
  rw [hprime] at hsbound
  have heq : out.getD i 0 = secrets.getD i 0 := by
    refine int_eq_of_cast_eq q _ _ hnn hlt hsbound.1 hsbound.2 ?_
    rw [hcast, hPv]
  rw [← List.getD_eq_getElem out 0 hi1, ← List.getD_eq_getElem secrets 0 hi2, heq]

/-! ## The claims -/

/-- Claim C1: for every secret vector of length `secret_count` with entries in
`[0, p)`, and for every sequence of threshold random field elements drawn
during sharing, calling `reconstruct` with the full index set
`[0, share_count)` and the complete output of `share` returns exactly the
secret vector. -/
theorem share_reconstruct_roundtrip (pss : PackedSecretSharing) (q : ℕ)
    (hv : ValidPSS pss q) (secrets randomness shs : List ℤ)
    (hbounds : ∀ x ∈ secrets, 0 ≤ x ∧ x < pss.prime)
    (hsh : share pss secrets randomness = some shs) :
    reconstruct pss (List.range pss.share_count) shs = some secrets := by
  obtain ⟨hq, hprime, hordsec, hordsh, hRn⟩ := hv
  haveI : Fact q.Prime := ⟨hq⟩
  obtain ⟨_, _, hshlen, _⟩ :=
    share_spec pss q hprime hordsec (le_trans hRn (Nat.le_succ _))
      secrets randomness shs hsh
  refine roundtrip_core pss q ⟨hq, hprime, hordsec, hordsh, hRn⟩ secrets randomness shs
    hbounds hsh (List.range pss.share_count) (List.nodup_range pss.share_count)
    (fun i hi => List.mem_range.mp hi)
    (by rw [List.length_range]; exact hRn)
    shs (by rw [List.length_range, hshlen]) ?_
  intro t ht
  rw [List.length_range] at ht
  rw [getD_range _ t ht]

/-- Witness for C1: the fixed-randomness sharing of `[1, 2, 3]` under
`PSS_4_8_3` reconstructs from all eight shares. -/
theorem share_reconstruct_roundtrip_witness :
    reconstruct PSS_4_8_3 (List.range 8) [91, 337, 88, 425, 336, 51, 395, 160]
      = some [1, 2, 3] :=
  share_reconstruct_roundtrip PSS_4_8_3 433 validPSS_4_8_3 [1, 2, 3] [8, 8, 8, 8]
    [91, 337, 88, 425, 336, 51, 395, 160] (by decide) (by decide)

/-- Claim C2: for every valid secret vector and every subset of the produced
shares of size exactly `reconstruct_limit` (with its matching distinct
indices), `reconstruct` returns the same secret vector as reconstructing from
all `share_count` shares. -/
theorem reconstruct_subset_eq_full (pss : PackedSecretSharing) (q : ℕ)
    (hv : ValidPSS pss q) (secrets randomness shs : List ℤ)
    (hbounds : ∀ x ∈ secrets, 0 ≤ x ∧ x < pss.prime)
    (hsh : share pss secrets randomness = some shs)
    (indices : List ℕ) (hnd : indices.Nodup)
    (hrange : ∀ i ∈ indices, i < pss.share_count)
    (hilen : indices.length = reconstruct_limit pss) :
    reconstruct pss indices (indices.map fun i => shs.getD i 0)
      = reconstruct pss (List.range pss.share_count) shs := by
  obtain ⟨hq, hprime, hordsec, hordsh, hRn⟩ := hv
  haveI : Fact q.Prime := ⟨hq⟩
  obtain ⟨_, _, hshlen, _⟩ :=
    share_spec pss q hprime hordsec (le_trans hRn (Nat.le_succ _))
      secrets randomness shs hsh
  have hsub := roundtrip_core pss q ⟨hq, hprime, hordsec, hordsh, hRn⟩ secrets randomness
    shs hbounds hsh indices hnd hrange (by rw [hilen])
    (indices.map fun i => shs.getD i 0) (by rw [List.length_map])
    (by
      intro t ht
      exact getD_map_natfun _ _ t ht)
  have hfull := roundtrip_core pss q ⟨hq, hprime, hordsec, hordsh, hRn⟩ secrets randomness
    shs hbounds hsh (List.range pss.share_count) (List.nodup_range pss.share_count)
    (fun i hi => List.mem_range.mp hi)
    (by rw [List.length_range]; exact hRn)
    shs (by rw [List.length_range, hshlen])
    (by
      intro t ht
      rw [List.length_range] at ht
      rw [getD_range _ t ht])
  rw [hsub, hfull]

set_option maxRecDepth 40000 in
/-- Witness for C2: under `PSS_4_26_3`, reconstructing `[5, 6, 7]` from the
first eight shares equals reconstructing from all twenty-six. -/
theorem reconstruct_subset_eq_full_witness :
    reconstruct PSS_4_26_3 [0, 1, 2, 3, 4, 5, 6, 7]
        (([0, 1, 2, 3, 4, 5, 6, 7] : List ℕ).map fun i =>
          ([55, 392, 72, 227, 253, 397, 174, 380, 396, 392, 42, 329, 196, 242, 269, 2,
            182, 170, 6, 193, 18, 24, 289, 329, 38, 7] : List ℤ).getD i 0)
      = reconstruct PSS_4_26_3 (List.range 26)
          [55, 392, 72, 227, 253, 397, 174, 380, 396, 392, 42, 329, 196, 242, 269, 2,
            182, 170, 6, 193, 18, 24, 289, 329, 38, 7] :=
  reconstruct_subset_eq_full PSS_4_26_3 433 validPSS_4_26_3 [5, 6, 7] [1, 2, 3, 4]
    [55, 392, 72, 227, 253, 397, 174, 380, 396, 392, 42, 329, 196, 242, 269, 2,
      182, 170, 6, 193, 18, 24, 289, 329, 38, 7]
    (by decide) (by decide) [0, 1, 2, 3, 4, 5, 6, 7] (by decide) (by decide) (by decide)

/-- Claim C3: reconstructing the elementwise sum mod p of two share vectors
from any `reconstruct_limit` of its entries (with matching indices) yields the
elementwise sum mod p of the two secret vectors, for every randomness drawn in
the two `share` calls. -/
theorem additive_homomorphism (pss : PackedSecretSharing) (q : ℕ)
    (hv : ValidPSS pss q) (A B rndA rndB shsA shsB : List ℤ)
    (hA : ∀ x ∈ A, 0 ≤ x ∧ x < pss.prime)
    (hB : ∀ x ∈ B, 0 ≤ x ∧ x < pss.prime)
    (hshA : share pss A rndA = some shsA)
    (hshB : share pss B rndB = some shsB)
    (indices : List ℕ) (hnd : indices.Nodup)
    (hrange : ∀ i ∈ indices, i < pss.share_count)
    (hilen : indices.length = reconstruct_limit pss) :
    reconstruct pss indices (indices.map fun i =>
        (List.zipWith (fun a b => (a + b) % pss.prime) shsA shsB).getD i 0)
      = some (List.zipWith (fun a b => (a + b) % pss.prime) A B) := by
  obtain ⟨hq, hprime, hordsec, hordsh, hRn⟩ := hv
  haveI : Fact q.Prime := ⟨hq⟩
  have hqpos : (0 : ℤ) < (q : ℤ) := by exact_mod_cast hq.pos
  obtain ⟨hA1, hA2, hAlen, PA, hdegA, hAvals, hPAvals⟩ :=
    share_spec pss q hprime hordsec (le_trans hRn (Nat.le_succ _)) A rndA shsA hshA
  obtain ⟨hB1, hB2, hBlen, PB, hdegB, hBvals, hPBvals⟩ :=
    share_spec pss q hprime hordsec (le_trans hRn (Nat.le_succ _)) B rndB shsB hshB
  rw [hprime] at hA hB ⊢
  obtain ⟨out, hout, houtlen, houtvals⟩ :=
    reconstruct_spec pss q hprime hordsh indices
      (indices.map fun i =>
        (List.zipWith (fun a b => (a + b) % (q : ℤ)) shsA shsB).getD i 0) (PA + PB)
      (by rw [List.length_map])
      (by rw [List.length_map, hilen])
      hnd hrange
      (by
        rw [hilen]
        refine lt_of_le_of_lt (Polynomial.degree_add_le _ _) ?_
        exact max_lt hdegA hdegB)
      (by
        intro t ht
        have hidx : indices.getD t 0 < pss.share_count := by
          refine hrange _ ?_
          rw [List.getD_eq_getElem _ _ ht]
          exact List.getElem_mem ht
        rw [getD_map_natfun _ _ t ht,
          getD_zipWith _ _ _ _ (by rw [hAlen]; exact hidx) (by rw [hBlen]; exact hidx),
          intCast_q_emod]
        push_cast
        rw [hAvals _ hidx, hBvals _ hidx, Polynomial.eval_add])
  rw [hout]
  congr 1
  have hkR : pss.secret_count ≤ reconstruct_limit pss - 1 := by
    unfold reconstruct_limit
    omega
  have houtlen2 : out.length = pss.secret_count := by
    rw [houtlen]
    omega
  refine List.ext_getElem (by rw [houtlen2, List.length_zipWith, hA1, hB1]; omega) ?_
  intro i hi1 hi2
  obtain ⟨hnn, hlt, hcast⟩ := houtvals i hi1
  have hiA : i < A.length := by
    rw [hA1]
    rw [houtlen2] at hi1
    exact hi1
  have hiB : i < B.length := by
    rw [hB1]
    rw [houtlen2] at hi1
    exact hi1
  have hiR : i + 1 < reconstruct_limit pss := by
    rw [houtlen2] at hi1
    unfold reconstruct_limit
    omega
  have hPA := hPAvals (i + 1) hiR
  have hPB := hPBvals (i + 1) hiR
  rw [values_getD_succ A rndA i hiA] at hPA
  rw [values_getD_succ B rndB i hiB] at hPB
  have htarget : (List.zipWith (fun a b => (a + b) % (q : ℤ)) A B).getD i 0
      = (A.getD i 0 + B.getD i 0) % (q : ℤ) := getD_zipWith _ _ _ i hiA hiB
  have hcast2 : ((out.getD i 0 : ℤ) : ZMod q)
      = (((A.getD i 0 + B.getD i 0) % (q : ℤ) : ℤ) : ZMod q) := by
    rw [hcast, Polynomial.eval_add, hPA, hPB, intCast_q_emod]
    push_cast
    ring
  have hbt := emod_nonneg_lt (q : ℤ) (A.getD i 0 + B.getD i 0) hqpos
  have heq : out.getD i 0 = (A.getD i 0 + B.getD i 0) % (q : ℤ) :=
    int_eq_of_cast_eq q _ _ hnn hlt hbt.1 hbt.2 hcast2
  rw [← List.getD_eq_getElem out 0 hi1, ← List.getD_eq_getElem _ 0 hi2, htarget, heq]

set_option maxRecDepth 40000 in
/-- Witness for C3 at `PSS_4_8_3`: summed shares of `[1, 2, 3]` and `[4, 5, 6]`
reconstruct to the elementwise sum. -/
theorem additive_homomorphism_witness :
    reconstruct PSS_4_8_3 [0, 1, 2, 3, 4, 5, 6, 7]
        (([0, 1, 2, 3, 4, 5, 6, 7] : List ℕ).map fun i =>
          (List.zipWith (fun a b => (a + b) % PSS_4_8_3.prime)
            [91, 337, 88, 425, 336, 51, 395, 160]
            [390, 413, 361, 95, 138, 309, 351, 135]).getD i 0)
      = some (List.zipWith (fun a b => (a + b) % PSS_4_8_3.prime) [1, 2, 3] [4, 5, 6]) :=
  additive_homomorphism PSS_4_8_3 433 validPSS_4_8_3 [1, 2, 3] [4, 5, 6]
    [8, 8, 8, 8] [3, 1, 4, 1]
    [91, 337, 88, 425, 336, 51, 395, 160] [390, 413, 361, 95, 138, 309, 351, 135]
    (by decide) (by decide) (by decide) (by decide)
    [0, 1, 2, 3, 4, 5, 6, 7] (by decide) (by decide) (by decide)

/-- Claim C4: reconstructing the elementwise product mod p of two share
vectors from `2 * reconstruct_limit - 1` of its entries (with matching
indices) yields the elementwise product mod p of the two secret vectors, for
every randomness drawn in the two `share` calls, provided
`share_count ≥ 2 * reconstruct_limit - 1`. -/
theorem multiplicative_homomorphism (pss : PackedSecretSharing) (q : ℕ)
    (hv : ValidPSS pss q) (A B rndA rndB shsA shsB : List ℤ)
    (hA : ∀ x ∈ A, 0 ≤ x ∧ x < pss.prime)
    (hB : ∀ x ∈ B, 0 ≤ x ∧ x < pss.prime)
    (hshA : share pss A rndA = some shsA)
    (hshB : share pss B rndB = some shsB)
    (h2r : 2 * reconstruct_limit pss - 1 ≤ pss.share_count)
    (indices : List ℕ) (hnd : indices.Nodup)
    (hrange : ∀ i ∈ indices, i < pss.share_count)
    (hilen : indices.length = 2 * reconstruct_limit pss - 1) :
    reconstruct pss indices (indices.map fun i =>
        (List.zipWith (fun a b => (a * b) % pss.prime) shsA shsB).getD i 0)
      = some (List.zipWith (fun a b => (a * b) % pss.prime) A B) := by
  obtain ⟨hq, hprime, hordsec, hordsh, hRn⟩ := hv
  haveI : Fact q.Prime := ⟨hq⟩
  have hqpos : (0 : ℤ) < (q : ℤ) := by exact_mod_cast hq.pos
  have hR1 : 1 ≤ reconstruct_limit pss := by
    unfold reconstruct_limit
    omega
  obtain ⟨hA1, hA2, hAlen, PA, hdegA, hAvals, hPAvals⟩ :=
    share_spec pss q hprime hordsec (le_trans hRn (Nat.le_succ _)) A rndA shsA hshA
  obtain ⟨hB1, hB2, hBlen, PB, hdegB, hBvals, hPBvals⟩ :=
    share_spec pss q hprime hordsec (le_trans hRn (Nat.le_succ _)) B rndB shsB hshB
  rw [hprime] at hA hB ⊢
  obtain ⟨out, hout, houtlen, houtvals⟩ :=
    reconstruct_spec pss q hprime hordsh indices
      (indices.map fun i =>
        (List.zipWith (fun a b => (a * b) % (q : ℤ)) shsA shsB).getD i 0) (PA * PB)
      (by rw [List.length_map])
      (by rw [List.length_map, hilen]; omega)
      hnd hrange
      (by
        rw [hilen]
        refine lt_of_le_of_lt (Polynomial.degree_mul_le _ _) ?_
        refine lt_of_le_of_lt
          (add_le_add (degree_le_pred_of_lt q PA _ hdegA)
            (degree_le_pred_of_lt q PB _ hdegB)) ?_
        rw [← Nat.cast_add, Nat.cast_withBot, Nat.cast_withBot]
        exact WithBot.coe_lt_coe.mpr (by omega))
      (by
        intro t ht
        have hidx : indices.getD t 0 < pss.share_count := by
          refine hrange _ ?_
          rw [List.getD_eq_getElem _ _ ht]
          exact List.getElem_mem ht
        rw [getD_map_natfun _ _ t ht,
          getD_zipWith _ _ _ _ (by rw [hAlen]; exact hidx) (by rw [hBlen]; exact hidx),
          intCast_q_emod]
        push_cast
        rw [hAvals _ hidx, hBvals _ hidx, Polynomial.eval_mul])
  rw [hout]
  congr 1
  have hkR : pss.secret_count ≤ 2 * reconstruct_limit pss - 1 - 1 := by
    unfold reconstruct_limit
    omega
  have houtlen2 : out.length = pss.secret_count := by
    rw [houtlen]
    unfold reconstruct_limit at *
    omega
  refine List.ext_getElem (by rw [houtlen2, List.length_zipWith, hA1, hB1]; omega) ?_
  intro i hi1 hi2
  obtain ⟨hnn, hlt, hcast⟩ := houtvals i hi1
  have hiA : i < A.length := by
    rw [hA1]
    rw [houtlen2] at hi1
    exact hi1
  have hiB : i < B.length := by
    rw [hB1]
    rw [houtlen2] at hi1
    exact hi1
  have hiR : i + 1 < reconstruct_limit pss := by
    rw [houtlen2] at hi1
    unfold reconstruct_limit at *
    omega
  have hPA := hPAvals (i + 1) hiR
  have hPB := hPBvals (i + 1) hiR
  rw [values_getD_succ A rndA i hiA] at hPA
  rw [values_getD_succ B rndB i hiB] at hPB
  have htarget : (List.zipWith (fun a b => (a * b) % (q : ℤ)) A B).getD i 0
      = (A.getD i 0 * B.getD i 0) % (q : ℤ) := getD_zipWith _ _ _ i hiA hiB
  have hcast2 : ((out.getD i 0 : ℤ) : ZMod q)
      = (((A.getD i 0 * B.getD i 0) % (q : ℤ) : ℤ) : ZMod q) := by
    rw [hcast, Polynomial.eval_mul, hPA, hPB, intCast_q_emod]
    push_cast
    ring
  have hbt := emod_nonneg_lt (q : ℤ) (A.getD i 0 * B.getD i 0) hqpos
  have heq : out.getD i 0 = (A.getD i 0 * B.getD i 0) % (q : ℤ) :=
    int_eq_of_cast_eq q _ _ hnn hlt hbt.1 hbt.2 hcast2
  rw [← List.getD_eq_getElem out 0 hi1, ← List.getD_eq_getElem _ 0 hi2, htarget, heq]

set_option maxRecDepth 400000 in
set_option maxHeartbeats 1000000 in
/-- Witness for C4 at `PSS_4_26_3`: multiplied shares of `[1, 2, 3]` and
`[4, 5, 6]` reconstruct from fifteen entries to the elementwise product. -/
theorem multiplicative_homomorphism_witness :
    reconstruct PSS_4_26_3 [0, 1, 2, 3, 4, 5, 6, 7, 8, 9, 10, 11, 12, 13, 14]
        (([0, 1, 2, 3, 4, 5, 6, 7, 8, 9, 10, 11, 12, 13, 14] : List ℕ).map fun i =>
          (List.zipWith (fun a b => (a * b) % PSS_4_26_3.prime)
            [77, 230, 91, 286, 179, 337, 83, 212, 88, 406, 58, 425, 345, 350, 336, 430,
              404, 51, 60, 305, 395, 84, 156, 160, 112, 422]
            [390, 396, 390, 347, 61, 413, 3, 204, 361, 53, 203, 95, 210, 62, 138, 2,
              395, 309, 135, 202, 351, 218, 270, 135, 401, 399]).getD i 0)
      = some (List.zipWith (fun a b => (a * b) % PSS_4_26_3.prime) [1, 2, 3] [4, 5, 6]) :=
  multiplicative_homomorphism PSS_4_26_3 433 validPSS_4_26_3 [1, 2, 3] [4, 5, 6]
    [8, 8, 8, 8] [3, 1, 4, 1]
    [77, 230, 91, 286, 179, 337, 83, 212, 88, 406, 58, 425, 345, 350, 336, 430,
      404, 51, 60, 305, 395, 84, 156, 160, 112, 422]
    [390, 396, 390, 347, 61, 413, 3, 204, 361, 53, 203, 95, 210, 62, 138, 2,
      395, 309, 135, 202, 351, 218, 270, 135, 401, 399]
    (by decide) (by decide) (by decide) (by decide) (by decide)
    [0, 1, 2, 3, 4, 5, 6, 7, 8, 9, 10, 11, 12, 13, 14] (by decide) (by decide) (by decide)

/-- Counterexample to C5 as stated: a call with equal lengths that meet the
reconstruct limit but a duplicated rank is rejected (`reconstruct` fails), so
failing is not characterised by the length conditions alone. -/
theorem reconstruct_failure_iff_counterexample :
    reconstruct PSS_4_8_3 [0, 0, 2, 3, 4, 5, 6, 7] [1, 1, 1, 1, 1, 1, 1, 1] = none
      ∧ ([1, 1, 1, 1, 1, 1, 1, 1] : List ℤ).length = ([0, 0, 2, 3, 4, 5, 6, 7] : List ℕ).length
      ∧ reconstruct_limit PSS_4_8_3 ≤ ([1, 1, 1, 1, 1, 1, 1, 1] : List ℤ).length :=
  ⟨by decide, by decide, by decide⟩

/-- Claim C5 (amended): for ranks within `[0, share_count)`, `reconstruct`
fails exactly when the lengths differ, or the lengths are below
`reconstruct_limit`, or the indices contain a duplicate rank; with equal
lengths at least `reconstruct_limit` and distinct ranks it does not fail. -/
theorem reconstruct_failure_iff (pss : PackedSecretSharing) (q : ℕ)
    (hv : ValidPSS pss q) (indices : List ℕ) (shares : List ℤ)
    (hrange : ∀ i ∈ indices, i < pss.share_count) :
    reconstruct pss indices shares = none ↔
      shares.length ≠ indices.length ∨ shares.length < reconstruct_limit pss ∨
        ¬ indices.Nodup := by
  obtain ⟨hq, hprime, _, hordsh, _⟩ := hv
  haveI : Fact q.Prime := ⟨hq⟩
  constructor
  · intro hnone
    by_contra hcon
    push_neg at hcon
    obtain ⟨hlen, hcon2⟩ := hcon
    obtain ⟨hRle, hnd⟩ := hcon2
    unfold reconstruct at hnone
    rw [if_neg (by simp [hlen]), if_neg (not_lt.mpr hRle), hprime] at hnone
    have hpw := points_pairwise q pss.omega_shares pss.share_count hordsh indices hnd hrange
    obtain ⟨cs, hcs⟩ := Option.isSome_iff_exists.mp
      (dd_isSome q hq (indices.map fun i => mod_pow pss.omega_shares (i + 1) (q : ℤ))
        shares hpw)
    rw [hcs] at hnone
    simp at hnone
  · intro hbad
    unfold reconstruct
    rcases hbad with h | h | h
    · rw [if_pos h]
    · by_cases hlen : shares.length ≠ indices.length
      · rw [if_pos hlen]
      · rw [if_neg hlen, if_pos h]
    · by_cases h1 : shares.length ≠ indices.length
      · rw [if_pos h1]
      · rw [if_neg h1]
        by_cases h2 : shares.length < reconstruct_limit pss
        · rw [if_pos h2]
        · rw [if_neg h2]
          have hlen' : shares.length = indices.length := not_not.mp h1
          have hnpw : ¬ ((indices.map fun i =>
              mod_pow pss.omega_shares (i + 1) pss.prime).Pairwise
                fun a b => (b - a) % pss.prime ≠ 0) := by
            intro hpw
            exact h (nodup_of_points_pairwise _ _ _ hpw)
          rw [dd_none pss.prime _ shares (by simp [hlen']) hnpw]

/-- Witness for C5: a well-formed call with distinct ranks does not fail. -/
theorem reconstruct_failure_iff_witness :
    reconstruct PSS_4_8_3 [0, 1, 2, 3, 4, 5, 6, 7] [1, 1, 1, 1, 1, 1, 1, 1] ≠ none := by
  intro hnone
  have h := (reconstruct_failure_iff PSS_4_8_3 433 validPSS_4_8_3
    [0, 1, 2, 3, 4, 5, 6, 7] [1, 1, 1, 1, 1, 1, 1, 1] (by decide)).mp hnone
  exact absurd h (by decide)

/-- Claim C6: if the indices argument of `reconstruct` contains a duplicate
rank, the call is rejected with no partial result returned, for every shares
vector of matching length at least `reconstruct_limit`. -/
theorem reconstruct_duplicate_rejected (pss : PackedSecretSharing) (indices : List ℕ)
    (shares : List ℤ) (hdup : ¬ indices.Nodup)
    (hlen : shares.length = indices.length)
    (hR : reconstruct_limit pss ≤ shares.length) :
    reconstruct pss indices shares = none := by
  unfold reconstruct
  rw [if_neg (by simp [hlen]), if_neg (not_lt.mpr hR)]
  have hnpw : ¬ ((indices.map fun i =>
      mod_pow pss.omega_shares (i + 1) pss.prime).Pairwise
        fun a b => (b - a) % pss.prime ≠ 0) := by
    intro hpw
    exact hdup (nodup_of_points_pairwise _ _ _ hpw)
  rw [dd_none pss.prime _ shares (by simp [hlen]) hnpw]

/-- Witness for C6: a duplicated rank with well-formed lengths is rejected. -/
theorem reconstruct_duplicate_rejected_witness :
    reconstruct PSS_4_8_3 [3, 3, 2, 0, 4, 5, 6, 7] [2, 2, 2, 2, 2, 2, 2, 2] = none :=
  reconstruct_duplicate_rejected PSS_4_8_3 [3, 3, 2, 0, 4, 5, 6, 7]
    [2, 2, 2, 2, 2, 2, 2, 2] (by decide) (by decide) (by decide)

set_option maxRecDepth 100000 in
/-- Counterexample to C7 as stated: with root 150 (a ninth root of unity, the
`omega_shares` of `PSS_4_8_3`, whose order does not match length 27) the
radix-3 forward transform of the fixed coefficient vector does not produce
the expected regression vector. -/
theorem fft3_regression_counterexample :
    fft3 [113, 51, 261, 267, 108, 432, 388, 112, 0, 0, 0, 0, 0, 0, 0, 0, 0, 0, 0, 0, 0,
        0, 0, 0, 0, 0, 0] 150 433
      ≠ [0, 77, 230, 91, 286, 179, 337, 83, 212, 88, 406, 58, 425, 345, 350, 336, 430,
        404, 51, 60, 305, 395, 84, 156, 160, 112, 422] := by decide

set_option maxRecDepth 100000 in
/-- Claim C7 (amended): applying the radix-3 forward transform to the fixed
length-27 coefficient vector with root 17 — the `omega_shares` of
`PSS_4_26_3`, the configuration `test_evaluate_polynomial` actually uses —
and modulus 433 produces the fixed 27-element regression vector; equivalently
`evaluate_polynomial` of `PSS_4_26_3` does. -/
theorem fft3_regression_vector :
    fft3 [113, 51, 261, 267, 108, 432, 388, 112, 0, 0, 0, 0, 0, 0, 0, 0, 0, 0, 0, 0, 0,
        0, 0, 0, 0, 0, 0] 17 433
      = [0, 77, 230, 91, 286, 179, 337, 83, 212, 88, 406, 58, 425, 345, 350, 336, 430,
        404, 51, 60, 305, 395, 84, 156, 160, 112, 422]
      ∧ evaluate_polynomial PSS_4_26_3
          [113, 51, 261, 267, 108, 432, 388, 112, 0, 0, 0, 0, 0, 0, 0, 0, 0, 0, 0, 0, 0,
            0, 0, 0, 0, 0, 0]
        = some [0, 77, 230, 91, 286, 179, 337, 83, 212, 88, 406, 58, 425, 345, 350, 336,
            430, 404, 51, 60, 305, 395, 84, 156, 160, 112, 422] :=
  ⟨by decide, by decide⟩

/-- Claim C8: every element of the vector returned by `share`, and every
element of the vector returned by `reconstruct` on valid inputs, is a
normalized field representative in `[0, p)`. -/
theorem outputs_normalized (pss : PackedSecretSharing) (hp : 0 < pss.prime)
    (secrets randomness shs : List ℤ) (indices : List ℕ) (ws out : List ℤ)
    (hsh : share pss secrets randomness = some shs)
    (hrec : reconstruct pss indices ws = some out) :
    (∀ y ∈ shs, 0 ≤ y ∧ y < pss.prime) ∧ ∀ y ∈ out, 0 ≤ y ∧ y < pss.prime := by
  constructor
  · unfold share at hsh
    by_cases h1 : secrets.length ≠ pss.secret_count
    · rw [if_pos h1] at hsh
      simp at hsh
    rw [if_neg h1] at hsh
    by_cases h2 : randomness.length ≠ pss.threshold
    · rw [if_pos h2] at hsh
      simp at hsh
    rw [if_neg h2] at hsh
    obtain ⟨poly, hpoly, hb2⟩ := Option.bind_eq_some.mp hsh
    obtain ⟨evals, hevals, hb3⟩ := Option.bind_eq_some.mp hb2
    have hshs : shs = evals.tail := by
      cases hb3
      rfl
    unfold evaluate_polynomial at hevals
    by_cases h3 : (poly ++ List.replicate (pss.share_count + 1 - reconstruct_limit pss)
        0).length ≠ pss.share_count + 1
    · rw [if_pos h3] at hevals
      simp at hevals
    rw [if_neg h3] at hevals
    have hev : evals = fft3 (poly ++ List.replicate
        (pss.share_count + 1 - reconstruct_limit pss) 0) pss.omega_shares pss.prime := by
      cases hevals
      rfl
    intro y hy
    have hy2 : y ∈ evals := by
      rw [hshs] at hy
      exact List.mem_of_mem_tail hy
    rw [hev] at hy2
    unfold fft3 at hy2
    obtain ⟨j, hj, hyj⟩ := List.mem_map.mp hy2
    rw [← hyj]
    exact evalPoly_bounds pss.prime hp _ _
  · unfold reconstruct at hrec
    by_cases h1 : ws.length ≠ indices.length
    · rw [if_pos h1] at hrec
      simp at hrec
    rw [if_neg h1] at hrec
    by_cases h2 : ws.length < reconstruct_limit pss
    · rw [if_pos h2] at hrec
      simp at hrec
    rw [if_neg h2] at hrec
    cases hdd : divided_differences (indices.map fun i =>
        mod_pow pss.omega_shares (i + 1) pss.prime) ws pss.prime with
    | none =>
      rw [hdd] at hrec
      simp at hrec
    | some cs =>
      rw [hdd] at hrec
      cases hrec
      intro y hy
      have hy2 := List.mem_of_mem_take hy
      obtain ⟨j, hj, hyj⟩ := List.mem_map.mp hy2
      rw [← hyj]
      exact newton_evaluate_bounds pss.prime hp _ _ _

/-- Witness for C8: the concrete `PSS_4_8_3` share and reconstruct outputs are
normalized. -/
theorem outputs_normalized_witness :
    (∀ y ∈ ([91, 337, 88, 425, 336, 51, 395, 160] : List ℤ),
        0 ≤ y ∧ y < PSS_4_8_3.prime)
      ∧ ∀ y ∈ ([1, 2, 3] : List ℤ), 0 ≤ y ∧ y < PSS_4_8_3.prime :=
  outputs_normalized PSS_4_8_3 (by decide) [1, 2, 3] [8, 8, 8, 8]
    [91, 337, 88, 425, 336, 51, 395, 160] (List.range 8)
    [91, 337, 88, 425, 336, 51, 395, 160] [1, 2, 3] (by decide) (by decide)

/-- Claim C9 is a code bug: `sample_polynomial` samples its randomness from
`Range::new(0, prime - 1)`, the half-open interval `[0, prime - 1)`, so the
field element `prime - 1` can never be drawn even though the specification
requires every field element of `[0, prime)` to be a possible draw. -/
theorem sample_range_excludes_top :
    ¬ sample_range_contains PSS_4_8_3 (PSS_4_8_3.prime - 1)
      ∧ 0 ≤ PSS_4_8_3.prime - 1 ∧ PSS_4_8_3.prime - 1 < PSS_4_8_3.prime := by
  exact ⟨by decide, by decide, by decide⟩

/-- Claim C10: for every valid secret vector and every randomness drawn, the
evaluation of the padded secret-bearing polynomial at the reserved point 1 —
the first radix-3 transform output, which `share` drops — equals 0, so the
discarded evaluation never depends on the secrets or the randomness. -/
theorem reserved_point_evaluation_zero (pss : PackedSecretSharing) (q : ℕ)
    (hv : ValidPSS pss q) (secrets randomness poly evals : List ℤ)
    (hpoly : recover_polynomial pss secrets randomness = some poly)
    (hevals : evaluate_polynomial pss
        (poly ++ List.replicate (pss.share_count + 1 - reconstruct_limit pss) 0)
      = some evals) :
    evals.getD 0 0 = 0 := by
  obtain ⟨hq, hprime, hordsec, hordsh, hRn⟩ := hv
  haveI : Fact q.Prime := ⟨hq⟩
  have hqpos : (0 : ℤ) < (q : ℤ) := by exact_mod_cast hq.pos
  unfold recover_polynomial at hpoly
  have hvlen : (0 :: (secrets ++ randomness)).length = reconstruct_limit pss := by
    by_contra hne
    rw [if_pos hne] at hpoly
    simp at hpoly
  rw [if_neg (by simp [hvlen]), hprime] at hpoly
  have hplen : poly.length = reconstruct_limit pss := by
    rw [fft2_inverse_some_length _ _ _ _ hpoly, hvlen]
  have hpolyF := fft2_inverse_cast q _ _ _ hpoly
  unfold evaluate_polynomial at hevals
  have hpadlen : (poly ++ List.replicate (pss.share_count + 1 - reconstruct_limit pss)
      0).length = pss.share_count + 1 := by
    simp [hplen]
    omega
  rw [if_neg (by simp [hpadlen]), hprime] at hevals
  have hev : evals = fft3 (poly ++ List.replicate
      (pss.share_count + 1 - reconstruct_limit pss) 0) pss.omega_shares (q : ℤ) := by
    cases hevals
    rfl
  have hget : evals.getD 0 0 = evalPoly (poly ++ List.replicate
      (pss.share_count + 1 - reconstruct_limit pss) 0)
      (mod_pow pss.omega_shares 0 (q : ℤ)) (q : ℤ) := by
    rw [hev]
    unfold fft3
    exact getD_map_range _ _ 0 0 (by rw [hpadlen]; omega)
  have hbounds := evalPoly_bounds (q : ℤ)
    hqpos (poly ++ List.replicate (pss.share_count + 1 - reconstruct_limit pss) 0)
    (mod_pow pss.omega_shares 0 (q : ℤ))
  have hcast : ((evals.getD 0 0 : ℤ) : ZMod q) = 0 := by
    rw [hget, evalPoly_cast, mod_pow_cast, pow_zero]
    rw [List.map_append, List.map_replicate]
    rw [show (((0 : ℤ)) : ZMod q) = 0 by simp, evalPolyF_append_zeros]
    have h1 : (1 : ZMod q) = ((pss.omega_secrets : ZMod q)) ^ 0 := (pow_zero _).symm
    rw [h1, hpolyF]
    have hvflen : ((0 :: (secrets ++ randomness)).map fun c => ((c : ℤ) : ZMod q)).length
        = reconstruct_limit pss := by
      rw [List.length_map, hvlen]
    rw [idftF_eval _ _ (by rw [hvflen]; exact hordsec)
      (by rw [hvflen]
          exact order_cast_ne_zero q _ _ hordsec (by unfold reconstruct_limit; omega))
      0 (by rw [hvflen]; unfold reconstruct_limit; omega)]
    simp
  refine int_eq_of_cast_eq q _ 0 ?_ ?_ (le_refl 0) hqpos ?_
  · rw [hget]
    exact hbounds.1
  · rw [hget]
    exact hbounds.2
  · rw [hcast]
    simp

/-- Witness for C10: the first transform output of the fixed-randomness
sharing of `[1, 2, 3]` under `PSS_4_8_3` is 0. -/
theorem reserved_point_evaluation_zero_witness :
    ([0, 91, 337, 88, 425, 336, 51, 395, 160] : List ℤ).getD 0 0 = 0 :=
  reserved_point_evaluation_zero PSS_4_8_3 433 validPSS_4_8_3 [1, 2, 3] [8, 8, 8, 8]
    [113, 51, 261, 267, 108, 432, 388, 112] [0, 91, 337, 88, 425, 336, 51, 395, 160]
    (by decide) (by decide)
